import Mathlib

/-!
Verification of the hedge GPU execution-planning and scheduling core.

This file gives a shallow embedding of:
* the dataflow scheduler/executor (`Code.__init__` / `Code.execute` in
  `src/python/compiler.py`),
* the instruction priority model (`Instruction`, `FluxReceiveBatchAssign`),
* the flux-batching phase of `OperatorCompilerBase.__call__`,
* the greedy GPU partitioner `make_gpu_partition_greedy`
  (`hedge/backends/cuda/__init__.py`),
* `GPUFaceStorage.set_opposite` and the boundary-face offset assignment in
  `Discretization._build_face_storage_info`.

Python dicts are modelled as association lists (latest binding first),
Python sets iterated in a definite order are modelled as duplicate-free
lists, and futures are modelled as a countdown plus a value: a future
reports ready when its countdown reaches zero, each poll of a non-ready
future decrements its countdown (so every future is eventually ready),
and a blocking resolve returns the value regardless of the countdown.
-/

namespace Hedge

/-! ## Instruction model (`src/python/compiler.py`, classes `Instruction`,
`Assign`, `FluxBatchAssign`, `DiffBatchAssign`, `MassAssign`,
`FluxReceiveBatchAssign`). -/

/-- The result of executing one assignment slot of an instruction:
either an immediate value or a future (modelled as countdown + value). -/
inductive Outcome where
  | val (v : Nat)
  | fut (countdown : Nat) (v : Nat)
deriving DecidableEq, Repr

/-- The instruction kinds of `compiler.py`.  `Assign` instances receive an
explicit priority at construction (`make_assign`); the other classes use
their class-level `priority` attribute. -/
inductive InsnKind where
  | assign (priority : Int)
  | fluxBatchAssign
  | diffBatchAssign
  | massAssign
  | fluxReceiveBatchAssign
deriving DecidableEq, Repr

/-- The `priority` attribute of each instruction class: `Instruction`
declares `priority = 0` as default; `FluxReceiveBatchAssign` overrides it
with `priority = -1`; `Assign` carries the priority given to
`make_assign`. -/
def InsnKind.priority : InsnKind → Int
  | .assign p => p
  | .fluxReceiveBatchAssign => -1
  | _ => 0

/-- Execution context `exec_mapper.context`: a Python dict from variable
names to values, modelled as an association list where the most recent
binding comes first. -/
abbrev Ctx := List (String × Nat)

/-- Dict lookup `context[name]`. -/
def ctxLookup (ctx : Ctx) (n : String) : Option Nat :=
  (ctx.find? (fun p => p.1 = n)).map (fun p => p.2)

/-- Membership test `name in context`. -/
def ctxMem (ctx : Ctx) (n : String) : Bool :=
  (ctxLookup ctx n).isSome

/-- One instruction: its kind (determining the priority), the names it
assigns (`get_assignees`), the variable names it reads
(`get_dependencies`), and its executor method, which given the current
context yields one `Outcome` per assignee (the executor methods of the
backends yield `(target, value)` pairs, one per assignee, computed from
the bound values of the context). -/
structure Insn where
  kind : InsnKind
  assignees : List String
  deps : List String
  exec : Ctx → List Outcome

/-- `insn.priority`. -/
def Insn.priority (i : Insn) : Int := i.kind.priority

/-- A `Code` object: the instruction list and the result expression
(modelled as a function of the final context, cf.
`with_object_array_or_scalar(exec_mapper, self.result)`). -/
structure Code where
  instructions : List Insn
  result : Ctx → Nat

/-- Instruction number `i` of the code (out-of-range indices give a
harmless dummy instruction; all statements quantify over valid indices). -/
def Code.insn (c : Code) (i : Nat) : Insn :=
  c.instructions.getD i ⟨.assign 0, [], [], fun _ => []⟩

/-- `insn_generated_vars` of `Code.__init__`: every name assigned by any
instruction of the code. -/
def Code.generatedVars (c : Code) : List String :=
  (c.instructions.map (fun i => i.assignees)).flatten

/-- `self.initial_exec_front` of `Code.__init__`: the instructions whose
dependency set does not intersect `insn_generated_vars`
(`if not (insn.get_dependencies() & insn_generated_vars)`).
Instructions are identified by their index in the instruction list. -/
def Code.initialExecFront (c : Code) : List Nat :=
  (List.range c.instructions.length).filter
    (fun i => (c.insn i).deps.all (fun d => !(c.generatedVars.contains d)))

/-- `self.insns_depending_on[name]`: the instructions whose dependency set
contains `name`, as indices. -/
def Code.insnsDependingOn (c : Code) (name : String) : List Nat :=
  (List.range c.instructions.length).filter
    (fun i => (c.insn i).deps.contains name)

/-! ## Scheduler state (`Code.execute`). -/

/-- A pending future entry of the `futures` list: target name, countdown
until `is_ready()` returns true, and the value delivered on resolution. -/
abbrev FutEntry := String × Nat × Nat

/-- The mutable state of one `Code.execute` run: the ready set
`exec_front` (kept in insertion order), the pending `futures` list, the
binding context, and a ghost trace `done` of the executed instruction
indices in execution order. -/
structure ExecState where
  front : List Nat
  futures : List FutEntry
  ctx : Ctx
  done : List Nat
deriving Repr

/-- `make_available(name, value)` of `Code.execute`: bind the value in the
context, then add every instruction depending on `name` that is not
already in the ready set and whose dependencies are now all bound. -/
def makeAvailable (c : Code) (st : ExecState) (name : String) (v : Nat) :
    ExecState :=
  let ctx' : Ctx := (name, v) :: st.ctx
  let front' := (c.insnsDependingOn name).foldl
    (fun fr cand =>
      if cand ∈ fr then fr
      else if (c.insn cand).deps.all (fun d => ctxMem ctx' d) then
        fr ++ [cand]
      else fr)
    st.front
  { st with ctx := ctx', front := front' }

/-- The future-polling phase at the top of the `while` loop of
`Code.execute`: walk the futures list in order; a future that reports
ready is resolved (its value made available) and removed, a future that
is not yet ready stays (with its countdown decremented, modelling the
passage of time). Returns the new futures list and the updated state. -/
def pollLoop (c : Code) : List FutEntry → ExecState →
    List FutEntry × ExecState
  | [], st => ([], st)
  | (t, cd, v) :: rest, st =>
    if cd = 0 then
      pollLoop c rest (makeAvailable c st t v)
    else
      let (fs, st') := pollLoop c rest st
      ((t, cd - 1, v) :: fs, st')

/-- Poll all pending futures of the state. -/
def pollFutures (c : Code) (st : ExecState) : ExecState :=
  let (fs, st') := pollLoop c st.futures { st with futures := [] }
  { st' with futures := fs }

/-- `argmin2` of `pytools` over `(element, value)` pairs: the element with
the smallest value, the first one winning ties. -/
def argmin2 {α : Type} : List (α × Int) → Option α
  | [] => none
  | (x, p) :: rest => some (argmin2Go x p rest)
where
  argmin2Go (x : α) (p : Int) : List (α × Int) → α
    | [] => x
    | (y, q) :: rest =>
      if q < p then argmin2Go y q rest else argmin2Go x p rest

/-- Execute instruction `i`: remove it from the ready set, record it in
the ghost trace, call its executor method on the current context, and
process the yielded `(target, value)` pairs in order — a `Future` result
is appended to the futures list, an immediate value is made available. -/
def execInsn (c : Code) (st : ExecState) (i : Nat) : ExecState :=
  let insn := c.insn i
  let pairs := insn.assignees.zip (insn.exec st.ctx)
  let st1 := { st with front := st.front.erase i, done := st.done ++ [i] }
  pairs.foldl
    (fun s tv =>
      match tv.2 with
      | .fut cd v => { s with futures := s.futures ++ [(tv.1, cd, v)] }
      | .val v => makeAvailable c s tv.1 v)
    st1

/-- The loop of `Code.execute` has terminated when both the ready set and
the futures list are empty. -/
def terminal (st : ExecState) : Prop := st.front = [] ∧ st.futures = []

instance (st : ExecState) : Decidable (terminal st) := by
  unfold terminal; infer_instance

/-- One iteration of the `while exec_front or futures` loop of
`Code.execute`: if the loop condition fails the state is unchanged;
otherwise poll the futures, then execute the ready instruction with
minimal priority if any is ready, and otherwise force-resolve
(`futures.pop()`, which removes the *last* list element) a pending
future if one exists. -/
def step (c : Code) (st : ExecState) : ExecState :=
  if terminal st then st
  else
    let st1 := pollFutures c st
    match argmin2 (st1.front.map (fun i => (i, (c.insn i).priority))) with
    | some i => execInsn c st1 i
    | none =>
      match st1.futures.getLast? with
      | some (t, _, v) =>
        makeAvailable c { st1 with futures := st1.futures.dropLast } t v
      | none => st1

/-- Iterate the scheduler loop for `fuel` steps. -/
def runSched (c : Code) : Nat → ExecState → ExecState
  | 0, st => st
  | fuel + 1, st => runSched c fuel (step c st)

/-- The initial state of `Code.execute` for a given initial binding
context. -/
def initState (c : Code) (ctx₀ : Ctx) : ExecState :=
  { front := c.initialExecFront, futures := [], ctx := ctx₀, done := [] }

/-- `Code.execute`: run the scheduler loop and evaluate the result
expression in the final context. -/
def Code.execute (c : Code) (fuel : Nat) (ctx₀ : Ctx) : Nat :=
  c.result (runSched c fuel (initState c ctx₀)).ctx

/-! ## Flux batching (`OperatorCompilerBase.__call__`,
`src/python/compiler.py` lines 341-400).

Flux expressions are identified by opaque ids (`Nat`); `FluxRecord`
mirrors `OperatorCompilerBase.FluxRecord` with fields `flux_expr`,
`dependencies` (a set of expression ids) and `kind`. -/

/-- `OperatorCompilerBase.FluxRecord`. -/
structure FluxRecord where
  flux_expr : Nat
  dependencies : List Nat
  kind : String
deriving DecidableEq, Repr

/-- `OperatorCompilerBase.FluxBatch`. -/
structure FluxBatch where
  kind : String
  flux_exprs : List Nat
deriving DecidableEq, Repr

/-- An element of the Python set `admissible_deps`, which (as written in
the source) comes to hold `FluxRecord` objects, while the dependency sets
of the records hold expression ids; the two kinds of member never compare
equal, exactly as distinct Python objects of different types do not. -/
inductive PyVal where
  | expr (e : Nat)
  | record (r : FluxRecord)
deriving DecidableEq, Repr

/-- The dependency-expansion loop of `OperatorCompilerBase.__call__`:

    for fr in flux_queue:
        fr.dependencies = set()
        for d in fr.dependencies:
            fr.dependencies |= set(sf.flux_expr
                    for sf in self.get_contained_fluxes(d))

The first statement reassigns `fr.dependencies` to the empty set, so the
inner loop iterates over that just-emptied set. -/
def expandFluxDeps (getContainedFluxes : Nat → List FluxRecord)
    (fluxQueue : List FluxRecord) : List FluxRecord :=
  fluxQueue.map (fun fr =>
    let deps0 : List Nat := []
    let deps1 := deps0.foldl
      (fun acc d => acc ∪ (getContainedFluxes d).map (fun sf => sf.flux_expr))
      deps0
    { fr with dependencies := deps1 })

/-- Is `fr.dependencies <= admissible_deps` (Python set inclusion, with
the dependency ids compared against the members of `admissible_deps`)? -/
def depsAdmissible (admissible : List PyVal) (fr : FluxRecord) : Bool :=
  fr.dependencies.all (fun d => admissible.contains (PyVal.expr d))

/-- Group a present batch by flux kind
(`batches_by_kind` / `self.flux_batches.append(...)`): one `FluxBatch`
per kind occurring in the batch, in first-occurrence order of the kind,
each holding the flux expressions of that kind. -/
def batchesByKind (present : List FluxRecord) : List FluxBatch :=
  ((present.map (fun fr => fr.kind)).dedup).map (fun k =>
    { kind := k,
      flux_exprs :=
        ((present.filter (fun fr => fr.kind == k)).map
          (fun fr => fr.flux_expr)).dedup })

/-- The `while flux_queue:` batching loop of
`OperatorCompilerBase.__call__`: records whose dependency set is
contained in `admissible_deps` form the present batch and are removed
from the queue; if the batch is empty the compiler raises
`"cannot resolve flux evaluation order"`; otherwise the batch is emitted
(grouped by kind) and its *records* are added to `admissible_deps`
(`admissible_deps |= present_batch`). -/
def batchLoop (fluxQueue : List FluxRecord) (admissible : List PyVal)
    (acc : List FluxBatch) : Except String (List FluxBatch) :=
  if fluxQueue = [] then .ok acc
  else
    let present := fluxQueue.filter (depsAdmissible admissible)
    let rest := fluxQueue.filter (fun fr => !(depsAdmissible admissible fr))
    if h : present = [] then
      .error "cannot resolve flux evaluation order"
    else
      batchLoop rest (admissible ++ present.map PyVal.record)
        (acc ++ batchesByKind present)
termination_by fluxQueue.length
decreasing_by
  rcases List.exists_mem_of_ne_nil _ h with ⟨fr, hfr⟩
  have hmem := (List.mem_filter.1 hfr).1
  have hp := (List.mem_filter.1 hfr).2
  have h1 : (List.filter (fun fr => !(depsAdmissible admissible fr))
      fluxQueue).length ≤ fluxQueue.length := List.length_filter_le _ _
  rcases Nat.lt_or_ge
      (List.filter (fun fr => !(depsAdmissible admissible fr))
        fluxQueue).length
      fluxQueue.length with hlt | hge
  · exact hlt
  · exfalso
    have h2 := List.filter_length_eq_length.mp (Nat.le_antisymm hge h1).symm
    have := h2 fr hmem
    simp [hp] at this

/-- The flux-batching portion of `OperatorCompilerBase.__call__`: collect
the contained fluxes of the operator template, run the (buggy)
dependency-expansion loop, then batch. -/
def computeFluxBatches (getContainedFluxes : Nat → List FluxRecord)
    (expr : Nat) : Except String (List FluxBatch) :=
  let fluxQueue := expandFluxDeps getContainedFluxes (getContainedFluxes expr)
  batchLoop fluxQueue [] []

/-! ## `GPUFaceStorage.set_opposite`
(`hedge/backends/cuda/__init__.py` lines 86-90).

Faces are identified by opaque ids (`Nat`); the `opposite` field starts
as `None` (`Option.none`).  `setOpposite` returns the new value of the
field, or `none` for an assertion failure
(`assert self.opposite is opp`). -/

def setOpposite (opposite : Option Nat) (opp : Nat) : Option (Option Nat) :=
  match opposite with
  | none => some (some opp)
  | some o => if o = opp then some (some o) else none

/-! ## Boundary-face offsets of `Discretization._build_face_storage_info`
(`hedge/backends/cuda/__init__.py` lines 641-694).

`aligned_fnc` is computed once (`devdata.align_dtype(ldis.face_node_count(),
float_size)`); then for every boundary face group with a local
discretization and every face pair in it, the boundary face storage gets
`gpu_bdry_index_in_floats = aligned_boundary_floats[0]` and the counter
is incremented by `aligned_fnc`.  Groups are represented by their number
of face pairs; the result is the list of assigned GPU offsets in
processing order together with the final `aligned_boundary_dof_count`. -/

def buildBoundaryOffsets (alignedFnc : Nat) (faceCounts : List Nat) :
    List Nat × Nat :=
  faceCounts.foldl
    (fun acc nfaces =>
      (List.range nfaces).foldl
        (fun acc2 _ => (acc2.1 ++ [acc2.2], acc2.2 + alignedFnc))
        acc)
    ([], 0)

/-! ## Greedy GPU partitioner (`make_gpu_partition_greedy`,
`hedge/backends/cuda/__init__.py` lines 147-204).

The adjacency graph maps node ids `0 .. n-1` to neighbour lists
(`adj : List (List Nat)`); the set `avail_nodes` is modelled as a
duplicate-free list iterated in order (`iter(avail_nodes).next()` takes
the head). -/

/-- `argmax2` of `pytools` over `(element, value)` pairs: the element with
the largest value, the first one winning ties. -/
def argmax2 {α : Type} : List (α × Nat) → Option α
  | [] => none
  | (x, p) :: rest => some (argmax2Go x p rest)
where
  argmax2Go (x : α) (p : Nat) : List (α × Nat) → α
    | [] => x
    | (y, q) :: rest =>
      if q > p then argmax2Go y q rest else argmax2Go x p rest

/-- The element returned by `argmax2` is one of the listed elements. -/
theorem argmax2Go_mem {α : Type} (x : α) (p : Nat) (l : List (α × Nat)) :
    argmax2.argmax2Go x p l = x ∨ argmax2.argmax2Go x p l ∈ l.map Prod.fst := by
  induction l generalizing x p with
  | nil => left; rfl
  | cons hd tl ih =>
    obtain ⟨y, q⟩ := hd
    simp only [argmax2.argmax2Go]
    by_cases hq : q > p
    · simp only [hq, if_pos]
      rcases ih y q with h | h
      · right; simp [h]
      · right; simp [h]
    · simp only [hq, if_neg, not_false_iff]
      rcases ih x p with h | h
      · left; exact h
      · right; simp [h]

/-- The element returned by `argmax2` is a first component of the pair
list. -/
theorem argmax2_mem {α : Type} {l : List (α × Nat)} {x : α}
    (h : argmax2 l = some x) : x ∈ l.map Prod.fst := by
  cases l with
  | nil => simp [argmax2] at h
  | cons hd tl =>
    obtain ⟨y, q⟩ := hd
    simp only [argmax2, Option.some.injEq] at h
    subst h
    rcases argmax2Go_mem y q tl with h | h
    · simp [h]
    · simp [h]

/-- `adjgraph[node]`. -/
def adjGet (adj : List (List Nat)) (n : Nat) : List Nat :=
  adj.getD n []

/-- `num_connections_to_result(node)` of the `bfs` helper:
`sum(1 for rn in result if node in adjgraph[rn])`. -/
def numConnections (adj : List (List Nat)) (result : List Nat) (node : Nat) :
    Nat :=
  (result.filter (fun rn => (adjGet adj rn).contains node)).length

/-- `first(node for node in queue if node in avail_nodes)`. -/
def firstAvailIn (queue avail : List Nat) : Option Nat :=
  queue.find? (fun n => avail.contains n)

/-- The frontier position selected by `bfs`:
`argmax2((i, num_connections_to_result(qn)) for i, qn in enumerate(queue))`. -/
def pickIdx (adj : List (List Nat)) (result queue : List Nat) : Nat :=
  (argmax2 (queue.enum.map
    (fun p => (p.1, numConnections adj result p.2)))).getD 0

/-- The selected frontier position is a valid queue index. -/
theorem pickIdx_lt (adj : List (List Nat)) (result : List Nat)
    {queue : List Nat} (h : queue ≠ []) :
    pickIdx adj result queue < queue.length := by
  unfold pickIdx
  cases hq : argmax2 (queue.enum.map
      (fun p => (p.1, numConnections adj result p.2))) with
  | none =>
    simp only [Option.getD_none]
    exact List.length_pos.2 h
  | some j =>
    simp only [Option.getD_some]
    have hj := argmax2_mem hq
    rw [List.map_map] at hj
    rcases List.mem_map.1 hj with ⟨p, hp, hpe⟩
    have hlt := List.fst_lt_of_mem_enum hp
    simp only [Function.comp_apply] at hpe
    omega

/-- The value of one `bfs` call: the grown block (`result`), the follow-up
seed returned to the outer loop, and the remaining available nodes. -/
structure BfsResult where
  result : List Nat
  nextSeed : Option Nat
  avail : List Nat
deriving Repr

/-- The frontier node at the selected position,
`curr_node = queue.pop(curr_node_idx)`. -/
def pickNode (adj : List (List Nat)) (result queue : List Nat) : Nat :=
  queue.getD (pickIdx adj result queue) 0

/-- The `while True` loop of the `bfs` helper of
`make_gpu_partition_greedy`.  Each iteration pops the frontier node with
the most connections into the growing block (`argmax2` over the
enumerated queue); an available node is moved into the block, returning
when the block reaches `max_block_size`, and its neighbours join the
frontier.  When the frontier empties, the loop either returns (no nodes
left) or reseeds the queue with the next available node — which the
following iteration then necessarily moves into the block, so that
consumption is written here as part of the reseed case. -/
def bfsLoop (adj : List (List Nat)) (maxBlockSize : Nat) :
    List Nat → List Nat → List Nat → BfsResult
  | avail, [], result =>
    match avail with
    | [] => ⟨result, none, []⟩
    | a :: rest =>
      if (result ++ [a]).length = maxBlockSize then ⟨result ++ [a], none, rest⟩
      else bfsLoop adj maxBlockSize rest (adjGet adj a) (result ++ [a])
  | avail, q₀ :: qrest, result =>
    if pickNode adj result (q₀ :: qrest) ∈ avail then
      if (result ++ [pickNode adj result (q₀ :: qrest)]).length
          = maxBlockSize then
        ⟨result ++ [pickNode adj result (q₀ :: qrest)],
         firstAvailIn ((q₀ :: qrest).eraseIdx (pickIdx adj result (q₀ :: qrest)))
           (avail.erase (pickNode adj result (q₀ :: qrest))),
         avail.erase (pickNode adj result (q₀ :: qrest))⟩
      else
        bfsLoop adj maxBlockSize
          (avail.erase (pickNode adj result (q₀ :: qrest)))
          ((q₀ :: qrest).eraseIdx (pickIdx adj result (q₀ :: qrest)) ++
            adjGet adj (pickNode adj result (q₀ :: qrest)))
          (result ++ [pickNode adj result (q₀ :: qrest)])
    else
      bfsLoop adj maxBlockSize avail
        ((q₀ :: qrest).eraseIdx (pickIdx adj result (q₀ :: qrest))) result
termination_by avail queue _ => (avail.length, queue.length)
decreasing_by
  · exact Prod.Lex.left _ _ (by simp)
  · exact Prod.Lex.left _ _ (by
      rw [List.length_erase_of_mem (by assumption)]
      have : 0 < avail.length := List.length_pos_of_mem (by assumption)
      omega)
  · refine Prod.Lex.right _ ?_
    have hidx : pickIdx adj result (q₀ :: qrest) < (q₀ :: qrest).length :=
      pickIdx_lt adj result (by simp)
    rw [List.length_eraseIdx]
    simp only [hidx, if_pos]
    simp only [List.length_cons] at hidx ⊢
    omega

/-- The `bfs` loop never adds nodes back to `avail_nodes`. -/
theorem bfsLoop_avail_le (adj : List (List Nat)) (m : Nat)
    (avail queue result : List Nat) :
    (bfsLoop adj m avail queue result).avail.length ≤ avail.length := by
  induction avail, queue, result using bfsLoop.induct adj m with
  | case1 result => simp [bfsLoop]
  | case2 result a rest h =>
    rw [bfsLoop]
    simp only [h, if_pos]
    simp
  | case3 result a rest h ih =>
    rw [bfsLoop]
    simp only [h, if_neg, not_false_iff]
    simpa using Nat.le_trans ih (by simp)
  | case4 avail q₀ qrest result hcurr h =>
    rw [bfsLoop]
    simp only [hcurr, if_pos, h]
    simp only [List.length_erase_of_mem hcurr]
    omega
  | case5 avail q₀ qrest result hcurr h ih =>
    rw [bfsLoop]
    simp only [hcurr, if_pos, h, if_neg, not_false_iff]
    refine Nat.le_trans ih ?_
    rw [List.length_erase_of_mem hcurr]
    omega
  | case6 avail q₀ qrest result hcurr ih =>
    rw [bfsLoop]
    simp only [hcurr, if_neg, not_false_iff]
    exact ih

/-- On a singleton frontier the selected position is `0`. -/
theorem pickIdx_singleton (adj : List (List Nat)) (result : List Nat)
    (s : Nat) : pickIdx adj result [s] = 0 := by
  simp [pickIdx, argmax2, List.enum, argmax2.argmax2Go]

/-- On a singleton frontier the selected node is the seed. -/
theorem pickNode_singleton (adj : List (List Nat)) (result : List Nat)
    (s : Nat) : pickNode adj result [s] = s := by
  simp [pickNode, pickIdx_singleton]

/-- A `bfs` call on a non-empty available set strictly shrinks it. -/
theorem bfsLoop_avail_lt (adj : List (List Nat)) (m : Nat)
    {avail : List Nat} (h : avail ≠ []) (s : Nat) (result : List Nat) :
    (bfsLoop adj m avail [s] result).avail.length < avail.length := by
  rw [bfsLoop]
  by_cases hs : pickNode adj result [s] ∈ avail
  · simp only [hs, if_pos]
    by_cases hm : (result ++ [pickNode adj result [s]]).length = m
    · simp only [hm, if_pos]
      rw [List.length_erase_of_mem hs]
      exact Nat.sub_lt (List.length_pos_of_mem hs) Nat.one_pos
    · simp only [hm, if_neg, not_false_iff]
      refine Nat.lt_of_le_of_lt (bfsLoop_avail_le ..) ?_
      rw [List.length_erase_of_mem hs]
      exact Nat.sub_lt (List.length_pos_of_mem hs) Nat.one_pos
  · simp only [hs, if_neg, not_false_iff]
    rw [pickIdx_singleton]
    simp only [List.eraseIdx]
    cases avail with
    | nil => exact absurd rfl h
    | cons a rest =>
      rw [bfsLoop]
      by_cases hm : (result ++ [a]).length = m
      · simp only [hm, if_pos]; simp
      · simp only [hm, if_neg, not_false_iff]
        refine Nat.lt_of_le_of_lt (bfsLoop_avail_le ..) ?_
        simp

/-- The final value of one `make_gpu_partition_greedy` run: the partition
array and the block list. -/
structure PartitionResult where
  partition : List Nat
  blocks : List (List Nat)
deriving Repr

/-- The seed selection of the outer loop of `make_gpu_partition_greedy`:
the pending `next_node` when one is set, otherwise the available node of
maximal degree (`argmax2((node, len(adjgraph[node])) for node in
avail_nodes)`). -/
def seedOf (adj : List (List Nat)) (avail : List Nat)
    (nextNode : Option Nat) : Nat :=
  match nextNode with
  | some n => n
  | none =>
    (argmax2 (avail.map (fun n => (n, (adjGet adj n).length)))).getD 0

/-- The `while avail_nodes:` loop of `make_gpu_partition_greedy`: choose a
seed, grow one block with `bfs`, record its assignment in the partition
array (`partition[el] = len(blocks)` for every element of the block), and
append the block to the block list. -/
def partitionLoop (adj : List (List Nat)) (maxBlockSize : Nat) :
    List Nat → Option Nat → List Nat → List (List Nat) → PartitionResult
  | [], _, partition, blocks => ⟨partition, blocks⟩
  | a₀ :: arest, nextNode, partition, blocks =>
    partitionLoop adj maxBlockSize
      (bfsLoop adj maxBlockSize (a₀ :: arest)
        [seedOf adj (a₀ :: arest) nextNode] []).avail
      (bfsLoop adj maxBlockSize (a₀ :: arest)
        [seedOf adj (a₀ :: arest) nextNode] []).nextSeed
      ((bfsLoop adj maxBlockSize (a₀ :: arest)
        [seedOf adj (a₀ :: arest) nextNode] []).result.foldl
          (fun part el => part.set el blocks.length) partition)
      (blocks ++ [(bfsLoop adj maxBlockSize (a₀ :: arest)
        [seedOf adj (a₀ :: arest) nextNode] []).result])
termination_by avail _ _ _ => avail.length
decreasing_by
  exact bfsLoop_avail_lt adj maxBlockSize (by simp) _ _

/-- `make_gpu_partition_greedy(adjgraph, max_block_size)`: the available
set starts as all nodes, the partition array as `[0]*len(adjgraph)`, and
the loop runs until no node is available. -/
def make_gpu_partition_greedy (adj : List (List Nat)) (maxBlockSize : Nat) :
    List Nat × List (List Nat) :=
  ((partitionLoop adj maxBlockSize (List.range adj.length) none
      (List.replicate adj.length 0) []).partition,
   (partitionLoop adj maxBlockSize (List.range adj.length) none
      (List.replicate adj.length 0) []).blocks)

/-! ## Theorems -/

/-- C7: `GPUFaceStorage.set_opposite` stores the given face when the
`opposite` field is still unset; calling it again with the same face
leaves the field unchanged; calling it again with a different face fails
the `assert self.opposite is opp` consistency assertion — the opposite
back-reference is set exactly once. -/
theorem C7_set_opposite_exactly_once (o o₂ : Nat) (hne : o ≠ o₂) :
    setOpposite none o = some (some o) ∧
    setOpposite (some o) o = some (some o) ∧
    setOpposite (some o) o₂ = none := by
  refine ⟨rfl, ?_, ?_⟩ <;> simp [setOpposite, hne]

/-- Witness for C7 at faces `0` and `1`. -/
theorem C7_witness :
    setOpposite none 0 = some (some 0) ∧
    setOpposite (some 0) 0 = some (some 0) ∧
    setOpposite (some 0) 1 = none :=
  C7_set_opposite_exactly_once 0 1 (by decide)

/-- The inner boundary-face fold in closed form. -/
theorem boundaryInner_closed (fnc n : Nat) (l : List Nat) (t : Nat) :
    (List.range n).foldl
        (fun acc2 _ => (acc2.1 ++ [acc2.2], acc2.2 + fnc)) (l, t)
      = (l ++ (List.range n).map (fun k => t + k * fnc), t + n * fnc) := by
  induction n generalizing l t with
  | zero => simp
  | succ n ih =>
    rw [List.range_succ, List.foldl_append, ih]
    simp only [List.foldl_cons, List.foldl_nil, List.range_succ,
      List.map_append, List.map_cons, List.map_nil, List.append_assoc,
      Prod.mk.injEq]
    exact ⟨trivial, by ring⟩

/-- `buildBoundaryOffsets` in closed form: the `k`-th boundary face gets
offset `k * aligned_fnc` and the final count is
`(number of boundary faces) * aligned_fnc`. -/
theorem buildBoundaryOffsets_closed (fnc : Nat) (counts : List Nat) :
    buildBoundaryOffsets fnc counts =
      ((List.range counts.sum).map (fun k => k * fnc), counts.sum * fnc) := by
  unfold buildBoundaryOffsets
  suffices h : ∀ (cs : List Nat) (m : Nat),
      cs.foldl (fun acc nfaces => (List.range nfaces).foldl
          (fun acc2 _ => (acc2.1 ++ [acc2.2], acc2.2 + fnc)) acc)
        ((List.range m).map (fun k => k * fnc), m * fnc)
      = ((List.range (m + cs.sum)).map (fun k => k * fnc),
         (m + cs.sum) * fnc) by
    simpa using h counts 0
  intro cs
  induction cs with
  | nil => simp
  | cons c cs ih =>
    intro m
    rw [List.foldl_cons, boundaryInner_closed]
    have harr : (List.range m).map (fun k => k * fnc) ++
        (List.range c).map (fun k => m * fnc + k * fnc)
        = (List.range (m + c)).map (fun k => k * fnc) := by
      rw [List.range_add, List.map_append, List.map_map]
      congr 1
      apply List.map_congr_left
      intro k _
      simp [Nat.add_mul]
    rw [harr]
    have : m * fnc + c * fnc = (m + c) * fnc := by ring
    rw [this, ih (m + c), List.sum_cons, ← Nat.add_assoc]

/-- C8: in `_build_face_storage_info` the `k`-th boundary face processed
gets `gpu_bdry_index_in_floats = k * aligned_fnc` where `aligned_fnc` is
the aligned per-face dof count; the final `aligned_boundary_dof_count`
equals the sum of all boundary faces' aligned per-face dof counts (each
being `aligned_fnc`); and — the aligned per-face count being positive —
the assigned offsets are strictly increasing, hence the half-open ranges
`[offset, offset + aligned_fnc)` are pairwise non-overlapping. -/
theorem C8_boundary_offsets_monotone (fnc : Nat) (counts : List Nat)
    (hpos : 0 < fnc) :
    (buildBoundaryOffsets fnc counts).1 =
        (List.range counts.sum).map (fun k => k * fnc) ∧
    (buildBoundaryOffsets fnc counts).2 =
        (((buildBoundaryOffsets fnc counts).1).map (fun _ => fnc)).sum ∧
    ((buildBoundaryOffsets fnc counts).1).Pairwise
        (fun o₁ o₂ => o₁ < o₂ ∧ o₁ + fnc ≤ o₂) := by
  rw [buildBoundaryOffsets_closed]
  refine ⟨rfl, ?_, ?_⟩
  · rw [List.map_map,
      show ((fun _ => fnc) ∘ fun k => k * fnc) = (Function.const Nat fnc)
        from rfl,
      List.map_const]
    simp [List.sum_replicate, Nat.mul_comm]
  · refine List.Pairwise.map _ ?_ (List.pairwise_lt_range counts.sum)
    intro a b hab
    have h1 : a + 1 ≤ b := hab
    have h2 : a * fnc + fnc ≤ b * fnc := by
      calc a * fnc + fnc = (a + 1) * fnc := by ring
      _ ≤ b * fnc := Nat.mul_le_mul_right fnc h1
    exact ⟨by omega, h2⟩

/-- Witness for C8: three boundary faces in two groups with
`aligned_fnc = 4`. -/
theorem C8_witness :
    (buildBoundaryOffsets 4 [2, 1]).1 =
        (List.range ([2, 1] : List Nat).sum).map (fun k => k * 4) ∧
    (buildBoundaryOffsets 4 [2, 1]).2 =
        (((buildBoundaryOffsets 4 [2, 1]).1).map (fun _ => 4)).sum ∧
    ((buildBoundaryOffsets 4 [2, 1]).1).Pairwise
        (fun o₁ o₂ => o₁ < o₂ ∧ o₁ + 4 ≤ o₂) :=
  C8_boundary_offsets_monotone 4 [2, 1] (by decide)

/-- C4 (code bug): the dependency-expansion loop of
`OperatorCompilerBase.__call__` leaves every flux record with an *empty*
dependency set — `fr.dependencies = set()` clears the set immediately
before the loop that was meant to expand it iterates over it, so a flux
whose operand contains another flux does *not* have that inner flux in
its dependency set when batches are formed. -/
theorem C4_expanded_deps_empty (gcf : Nat → List FluxRecord)
    (q : List FluxRecord) :
    ∀ fr ∈ expandFluxDeps gcf q, fr.dependencies = [] := by
  intro fr hfr
  rcases List.mem_map.1 hfr with ⟨fr0, _, rfl⟩
  rfl

/-- The synthetic 2-cycle operator template: the template (id `0`)
contains fluxes `1` and `2`, flux `1` depending on flux `2` and flux `2`
on flux `1`. -/
def cycleContainedFluxes : Nat → List FluxRecord
  | 0 => [⟨1, [2], "whole-domain"⟩, ⟨2, [1], "whole-domain"⟩]
  | _ => []

/-- Witness for C4 at the 2-cycle operator template: the first record of
the expanded flux queue has an empty dependency set, although its flux
(flux `1`) depends on flux `2`. -/
theorem C4_witness :
    ((expandFluxDeps cycleContainedFluxes (cycleContainedFluxes 0)).getD 0
      ⟨0, [], ""⟩).dependencies = [] :=
  C4_expanded_deps_empty cycleContainedFluxes (cycleContainedFluxes 0) _
    (by decide)

/-- C3 (code bug): compiling the synthetic 2-cycle does *not* raise
`"cannot resolve flux evaluation order"`: because the expansion loop
clears every dependency set (see `C4_expanded_deps_empty`), both fluxes
of the cycle are immediately admissible and compilation silently
succeeds with a single whole-domain batch. -/
theorem C3_cycle_error_not_raised :
    computeFluxBatches cycleContainedFluxes 0 =
      .ok [{ kind := "whole-domain", flux_exprs := [1, 2] }] := by
  rw [computeFluxBatches]
  rw [batchLoop.eq_def]
  norm_num [expandFluxDeps, cycleContainedFluxes, depsAdmissible,
    batchesByKind]
  rw [batchLoop.eq_def]
  simp

/-! ### `argmin2` lemmas -/

/-- The running minimum of `argmin2` is one of the candidates and its
value bounds every listed value. -/
theorem argmin2Go_min {α : Type} (x : α) (p : Int) (l : List (α × Int)) :
    ∃ r : Int,
      ((argmin2.argmin2Go x p l, r) = (x, p) ∨ (argmin2.argmin2Go x p l, r) ∈ l)
      ∧ r ≤ p ∧ ∀ pr ∈ l, r ≤ pr.2 := by
  induction l generalizing x p with
  | nil => exact ⟨p, Or.inl rfl, le_refl p, by simp⟩
  | cons hd tl ih =>
    obtain ⟨y, q⟩ := hd
    simp only [argmin2.argmin2Go]
    by_cases hq : q < p
    · simp only [hq, if_pos]
      rcases ih y q with ⟨r, hr, hrq, hrl⟩
      refine ⟨r, ?_, by omega, ?_⟩
      · rcases hr with hr | hr
        · right; simp [hr]
        · right; simp [hr]
      · intro pr hpr
        rcases List.mem_cons.1 hpr with hpr | hpr
        · subst hpr; exact hrq
        · exact hrl pr hpr
    · simp only [hq, if_neg, not_false_iff]
      rcases ih x p with ⟨r, hr, hrp, hrl⟩
      refine ⟨r, ?_, hrp, ?_⟩
      · rcases hr with hr | hr
        · left; exact hr
        · right; simp [hr]
      · intro pr hpr
        rcases List.mem_cons.1 hpr with hpr | hpr
        · subst hpr; simp only; omega
        · exact hrl pr hpr

/-- `argmin2` returns a listed element whose value is minimal. -/
theorem argmin2_min {α : Type} {l : List (α × Int)} {x : α}
    (h : argmin2 l = some x) :
    ∃ r : Int, (x, r) ∈ l ∧ ∀ pr ∈ l, r ≤ pr.2 := by
  cases l with
  | nil => simp [argmin2] at h
  | cons hd tl =>
    obtain ⟨y, q⟩ := hd
    simp only [argmin2, Option.some.injEq] at h
    subst h
    rcases argmin2Go_min y q tl with ⟨r, hr, hrq, hrl⟩
    refine ⟨r, ?_, ?_⟩
    · rcases hr with hr | hr
      · rw [hr]; exact List.mem_cons_self _ _
      · exact List.mem_cons_of_mem _ hr
    · intro pr hpr
      rcases List.mem_cons.1 hpr with hpr | hpr
      · subst hpr; exact hrq
      · exact hrl pr hpr

/-- C10: `FluxReceiveBatchAssign` carries class priority `-1`; every
other instruction kind defaults to priority `0` (an `Assign` carries the
priority explicitly given to `make_assign`, default `0`); and since
`Code.execute` picks the ready instruction of minimal priority
(`argmin2`), whenever a flux-receive instruction is in the ready set
together with otherwise default-priority instructions, the chosen
instruction is a flux-receive. -/
theorem C10_flux_receive_runs_first
    (c : Code) (front : List Nat) (j : Nat)
    (hj : j ∈ front) (hjk : (c.insn j).kind = .fluxReceiveBatchAssign)
    (hothers : ∀ i ∈ front, (c.insn i).kind = .fluxReceiveBatchAssign ∨
        (c.insn i).priority = 0)
    (k : Nat)
    (hk : argmin2 (front.map (fun i => (i, (c.insn i).priority))) = some k) :
    (c.insn k).kind = .fluxReceiveBatchAssign ∧
    InsnKind.priority .fluxReceiveBatchAssign = -1 ∧
    InsnKind.priority .fluxBatchAssign = 0 ∧
    InsnKind.priority .diffBatchAssign = 0 ∧
    InsnKind.priority .massAssign = 0 ∧
    (∀ p, InsnKind.priority (.assign p) = p) := by
  refine ⟨?_, rfl, rfl, rfl, rfl, fun p => rfl⟩
  rcases argmin2_min hk with ⟨r, hmem, hmin⟩
  rcases List.mem_map.1 hmem with ⟨i, hi, hie⟩
  obtain ⟨rfl, rfl⟩ : i = k ∧ (c.insn i).priority = r := by
    have := Prod.mk.injEq i ((c.insn i).priority) k r ▸ hie
    exact ⟨this.1, this.2⟩
  have hjp : (c.insn j).priority = -1 := by
    simp [Insn.priority, hjk, InsnKind.priority]
  have hjin : ((j, (c.insn j).priority) : Nat × Int) ∈
      front.map (fun i => (i, (c.insn i).priority)) :=
    List.mem_map.2 ⟨j, hj, rfl⟩
  have hle := hmin _ hjin
  rw [hjp] at hle
  rcases hothers i hi with hfr | hzero
  · exact hfr
  · rw [hzero] at hle; omega

/-- Witness for C10: a two-instruction ready set, instruction `1` being a
flux-receive and instruction `0` a default-priority flux batch. -/
theorem C10_witness :
    (Code.insn
        { instructions := [⟨.fluxBatchAssign, ["u"], [], fun _ => []⟩,
            ⟨.fluxReceiveBatchAssign, ["w"], [], fun _ => []⟩],
          result := fun _ => 0 } 1).kind = .fluxReceiveBatchAssign ∧
    InsnKind.priority .fluxReceiveBatchAssign = -1 ∧
    InsnKind.priority .fluxBatchAssign = 0 ∧
    InsnKind.priority .diffBatchAssign = 0 ∧
    InsnKind.priority .massAssign = 0 ∧
    (∀ p, InsnKind.priority (.assign p) = p) :=
  C10_flux_receive_runs_first
    { instructions := [⟨.fluxBatchAssign, ["u"], [], fun _ => []⟩,
        ⟨.fluxReceiveBatchAssign, ["w"], [], fun _ => []⟩],
      result := fun _ => 0 }
    [0, 1] 1 (by decide) rfl
    (by intro i hi; fin_cases hi
        · right; rfl
        · left; rfl)
    1 rfl

/-! ### Basic scheduler-loop lemmas -/

/-- A terminal state is a fixed point of the loop body. -/
theorem step_terminal {c : Code} {st : ExecState} (h : terminal st) :
    step c st = st := by
  unfold step
  rw [if_pos h]

/-- Splitting a scheduler run. -/
theorem runSched_add (c : Code) (a b : Nat) (st : ExecState) :
    runSched c (a + b) st = runSched c a (runSched c b st) := by
  induction b generalizing st with
  | zero => rfl
  | succ b ih =>
    rw [show a + (b + 1) = (a + b) + 1 from rfl]
    rw [runSched, runSched, ih]

/-- A terminal state is a fixed point of the whole run. -/
theorem runSched_terminal {c : Code} {st : ExecState} (h : terminal st)
    (n : Nat) : runSched c n st = st := by
  induction n with
  | zero => rfl
  | succ n ih => rw [runSched, step_terminal h, ih]

/-- A single instruction producing two futures, used to exhibit the
force-resolution order of `Code.execute`. -/
def twoFutCode : Code :=
  { instructions := [⟨.assign 0, ["a", "b"], [],
      fun _ => [.fut 5 1, .fut 5 2]⟩],
    result := fun _ => 0 }

/-- C2 counterexample: a reachable `Code.execute` state whose ready set is
empty and whose pending futures list is `[("a", …), ("b", …)]` — the
future for `"a"` being the oldest — force-resolves `"b"`, the newest: the
next state binds `"b"` and leaves `"a"` pending and unbound, refuting the
claim that the oldest pending future is force-resolved. -/
theorem C2_counterexample :
    (runSched twoFutCode 1 (initState twoFutCode [])).front = [] ∧
    (runSched twoFutCode 1 (initState twoFutCode [])).futures.map
        Prod.fst = ["a", "b"] ∧
    ctxLookup (runSched twoFutCode 2 (initState twoFutCode [])).ctx "b"
        = some 2 ∧
    ctxLookup (runSched twoFutCode 2 (initState twoFutCode [])).ctx "a"
        = none ∧
    (runSched twoFutCode 2 (initState twoFutCode [])).futures.map
        Prod.fst = ["a"] := by
  refine ⟨rfl, rfl, rfl, rfl, rfl⟩

/-- C2 (amended): whenever the ready set is empty after polling but the
pending-futures list is non-empty, `Code.execute` force-resolves (blocks
on) the *newest* pending future — `futures.pop()` removes the last
element of the list, not the oldest (first) one. -/
theorem C2_force_resolves_newest (c : Code) (st : ExecState)
    (hnt : ¬ terminal st)
    (hfront : (pollFutures c st).front = [])
    (fs : List FutEntry) (t : String) (cd v : Nat)
    (hfut : (pollFutures c st).futures = fs ++ [(t, cd, v)]) :
    step c st =
      makeAvailable c { pollFutures c st with futures := fs } t v := by
  unfold step
  rw [if_neg hnt]
  simp only [hfront, hfut, List.map_nil, argmin2, List.getLast?_concat,
    List.dropLast_concat]

/-- Witness for C2 (amended) at the state reached after one step of
`twoFutCode`: the newest pending future (`"b"`) is the one resolved. -/
theorem C2_witness :
    step twoFutCode (runSched twoFutCode 1 (initState twoFutCode [])) =
      makeAvailable twoFutCode
        { pollFutures twoFutCode
            (runSched twoFutCode 1 (initState twoFutCode [])) with
          futures := [("a", 4, 1)] } "b" 2 :=
  C2_force_resolves_newest twoFutCode
    (runSched twoFutCode 1 (initState twoFutCode []))
    (by decide) (by decide) [("a", 4, 1)] "b" 4 2 (by decide)

/-! ### The linear three-instruction chain -/

/-- `context[name]` with default `0`, used by the concrete executor
methods of the example codes. -/
def ctxGetD (ctx : Ctx) (n : String) : Nat := (ctxLookup ctx n).getD 0

/-- The compiled code of the linear chain `a <- f(x)`, `b <- g(a)`,
`c <- h(b)`, with arbitrary instruction priorities. -/
def chainCode (f g h : Nat → Nat) (pa pb pc : Int) : Code :=
  { instructions := [
      ⟨.assign pa, ["a"], ["x"], fun ctx => [.val (f (ctxGetD ctx "x"))]⟩,
      ⟨.assign pb, ["b"], ["a"], fun ctx => [.val (g (ctxGetD ctx "a"))]⟩,
      ⟨.assign pc, ["c"], ["b"], fun ctx => [.val (h (ctxGetD ctx "b"))]⟩],
    result := fun ctx => ctxGetD ctx "c" }

set_option maxHeartbeats 2000000 in
/-- Running the chain for three steps executes `0`, then `1`, then `2`,
and terminates with all three values bound, independently of the
priorities. -/
theorem chainCode_run3 (f g h : Nat → Nat) (pa pb pc : Int) (x : Nat) :
    runSched (chainCode f g h pa pb pc) 3
        (initState (chainCode f g h pa pb pc) [("x", x)]) =
      { front := [], futures := [],
        ctx := [("c", h (g (f x))), ("b", g (f x)), ("a", f x), ("x", x)],
        done := [0, 1, 2] } := by
  rfl

set_option maxHeartbeats 2000000 in
/-- C6: for the linear chain `a <- f(x)`, `b <- g(a)`, `c <- h(b)` with
arbitrary priorities, `Code.execute` produces the same final value
`h (g (f x))` of `c` for a fixed input `x` whatever the priorities are,
and the ghost execution trace after any number of steps is a prefix of
`[0, 1, 2]` — so instruction `1` (computing `b`) never executes before
instruction `0` has executed and bound `a`. -/
theorem C6_chain_result_independent_of_priorities
    (f g h : Nat → Nat) (pa pb pc : Int) (x : Nat) :
    Code.execute (chainCode f g h pa pb pc) 3 [("x", x)] = h (g (f x)) ∧
    terminal (runSched (chainCode f g h pa pb pc) 3
        (initState (chainCode f g h pa pb pc) [("x", x)])) ∧
    (∀ fuel, (runSched (chainCode f g h pa pb pc) fuel
        (initState (chainCode f g h pa pb pc) [("x", x)])).done
      = List.take fuel [0, 1, 2]) := by
  refine ⟨rfl, by rw [chainCode_run3]; exact ⟨rfl, rfl⟩, ?_⟩
  intro fuel
  match fuel with
  | 0 => rfl
  | 1 => rfl
  | 2 => rfl
  | n + 3 =>
    have hsplit : n + 3 = n + 3 := rfl
    rw [show n + 3 = n + 3 from rfl]
    have h3 : runSched (chainCode f g h pa pb pc) (n + 3)
        (initState (chainCode f g h pa pb pc) [("x", x)])
        = runSched (chainCode f g h pa pb pc) n
          (runSched (chainCode f g h pa pb pc) 3
            (initState (chainCode f g h pa pb pc) [("x", x)])) :=
      runSched_add _ n 3 _
    rw [h3, chainCode_run3, runSched_terminal ⟨rfl, rfl⟩ n]
    exact (List.take_of_length_le (by simp)).symm

/-! ### The dependency-binding invariant (C1) -/

/-- Binding one more name preserves context membership. -/
theorem ctxMem_cons (p : String × Nat) (ctx : Ctx) (d : String)
    (h : ctxMem ctx d = true) : ctxMem (p :: ctx) d = true := by
  unfold ctxMem ctxLookup at h ⊢
  rw [List.find?_cons]
  split <;> simp_all

/-- Every member of the ready set after the `make_available` scan was
either already there, or has all its dependencies bound in the updated
context. -/
theorem foldl_addFront_mem (c : Code) (ctx2 : Ctx) :
    ∀ (cands fr : List Nat) (i : Nat),
      i ∈ cands.foldl (fun fr cand =>
        if cand ∈ fr then fr
        else if (c.insn cand).deps.all (fun d => ctxMem ctx2 d) then
          fr ++ [cand]
        else fr) fr →
      i ∈ fr ∨ ((c.insn i).deps.all (fun d => ctxMem ctx2 d) = true) := by
  intro cands
  induction cands with
  | nil => intro fr i h; exact Or.inl h
  | cons cand rest ih =>
    intro fr i h
    simp only [List.foldl_cons] at h
    by_cases hc : cand ∈ fr
    · rw [if_pos hc] at h
      exact ih fr i h
    · rw [if_neg hc] at h
      by_cases hd : (c.insn cand).deps.all (fun d => ctxMem ctx2 d) = true
      · rw [if_pos hd] at h
        rcases ih _ i h with h2 | h2
        · rcases List.mem_append.1 h2 with h3 | h3
          · exact Or.inl h3
          · simp only [List.mem_singleton] at h3
            subst h3
            exact Or.inr hd
        · exact Or.inr h2
      · rw [if_neg hd] at h
        exact ih fr i h

/-- Invariant: every instruction in the ready set has all of its declared
dependencies bound in the context. -/
def FrontDepsBound (c : Code) (st : ExecState) : Prop :=
  ∀ i ∈ st.front, ∀ d ∈ (c.insn i).deps, ctxMem st.ctx d = true

theorem makeAvailable_preserves_fdb (c : Code) (st : ExecState)
    (name : String) (v : Nat) (h : FrontDepsBound c st) :
    FrontDepsBound c (makeAvailable c st name v) := by
  intro i hi d hd
  rcases foldl_addFront_mem c ((name, v) :: st.ctx)
      (c.insnsDependingOn name) st.front i hi with h2 | h2
  · exact ctxMem_cons _ _ _ (h i h2 d hd)
  · exact List.all_eq_true.1 h2 d hd

/-- The invariant ignores the futures list. -/
theorem fdb_futures_eq (c : Code) (st : ExecState) (fs : List FutEntry)
    (h : FrontDepsBound c st) :
    FrontDepsBound c { st with futures := fs } :=
  fun i hi d hd => h i hi d hd

theorem pollLoop_preserves_fdb (c : Code) :
    ∀ (fs : List FutEntry) (st : ExecState), FrontDepsBound c st →
      FrontDepsBound c (pollLoop c fs st).2 := by
  intro fs
  induction fs with
  | nil => intro st h; exact h
  | cons f rest ih =>
    obtain ⟨t, cd, v⟩ := f
    intro st h
    simp only [pollLoop]
    by_cases hcd : cd = 0
    · rw [if_pos hcd]
      exact ih _ (makeAvailable_preserves_fdb _ _ _ _ h)
    · rw [if_neg hcd]
      cases hpl : pollLoop c rest st with
      | mk fs2 st2 =>
        have := ih st h
        rw [hpl] at this
        simpa using this

theorem pollFutures_preserves_fdb (c : Code) (st : ExecState)
    (h : FrontDepsBound c st) : FrontDepsBound c (pollFutures c st) := by
  unfold pollFutures
  cases hpl : pollLoop c st.futures { st with futures := [] } with
  | mk fs2 st2 =>
    have h2 := pollLoop_preserves_fdb c st.futures
      { st with futures := [] } (fdb_futures_eq c st [] h)
    rw [hpl] at h2
    exact fdb_futures_eq c st2 fs2 h2

theorem execFold_preserves_fdb (c : Code) :
    ∀ (pairs : List (String × Outcome)) (st : ExecState),
      FrontDepsBound c st →
      FrontDepsBound c (pairs.foldl (fun s tv =>
        match tv.2 with
        | .fut cd v => { s with futures := s.futures ++ [(tv.1, cd, v)] }
        | .val v => makeAvailable c s tv.1 v) st) := by
  intro pairs
  induction pairs with
  | nil => exact fun st h => h
  | cons p rest ih =>
    intro st h
    simp only [List.foldl_cons]
    cases hp : p.2 with
    | fut cd v =>
      simp only [hp]
      exact ih _ (fdb_futures_eq c st _ h)
    | val v =>
      simp only [hp]
      exact ih _ (makeAvailable_preserves_fdb _ _ _ _ h)

/-- Shrinking the ready set preserves the invariant. -/
theorem fdb_erase (c : Code) (st : ExecState) (i : Nat)
    (h : FrontDepsBound c st) :
    FrontDepsBound c
      { st with front := st.front.erase i, done := st.done ++ [i] } :=
  fun j hj d hd => h j (List.mem_of_mem_erase hj) d hd

theorem execInsn_preserves_fdb (c : Code) (st : ExecState) (i : Nat)
    (h : FrontDepsBound c st) : FrontDepsBound c (execInsn c st i) := by
  unfold execInsn
  exact execFold_preserves_fdb c _ _ (fdb_erase c st i h)

theorem step_preserves_fdb (c : Code) (st : ExecState)
    (h : FrontDepsBound c st) : FrontDepsBound c (step c st) := by
  unfold step
  by_cases ht : terminal st
  · rw [if_pos ht]; exact h
  · rw [if_neg ht]
    have h1 : FrontDepsBound c (pollFutures c st) :=
      pollFutures_preserves_fdb c st h
    cases ha : argmin2 ((pollFutures c st).front.map
        (fun i => (i, (c.insn i).priority))) with
    | some j =>
      simp only [ha]
      exact execInsn_preserves_fdb _ _ _ h1
    | none =>
      simp only [ha]
      cases hl : (pollFutures c st).futures.getLast? with
      | some tv =>
        obtain ⟨t, cd, v⟩ := tv
        simp only [hl]
        exact makeAvailable_preserves_fdb _ _ _ _
          (fdb_futures_eq c _ _ h1)
      | none =>
        simp only [hl]
        exact h1

theorem runSched_preserves_fdb (c : Code) (fuel : Nat) (st : ExecState)
    (h : FrontDepsBound c st) : FrontDepsBound c (runSched c fuel st) := by
  induction fuel generalizing st with
  | zero => exact h
  | succ n ih => exact ih _ (step_preserves_fdb c st h)

/-- The instruction `Code.execute` runs next from a given state (if the
loop continues and the polled ready set is non-empty). -/
def scheduledInsn (c : Code) (st : ExecState) : Option Nat :=
  if terminal st then none
  else argmin2 ((pollFutures c st).front.map
    (fun i => (i, (c.insn i).priority)))

/-- `argmin2` picks one of the listed elements. -/
theorem argmin2_mem {α : Type} {l : List (α × Int)} {x : α}
    (h : argmin2 l = some x) : x ∈ l.map Prod.fst := by
  rcases argmin2_min h with ⟨r, hmem, _⟩
  exact List.mem_map.2 ⟨(x, r), hmem, rfl⟩

/-- C1: an instruction enters the ready set at construction only if its
dependency set contains no instruction-generated variable; and provided
the initial bindings cover every non-generated dependency, every
instruction the scheduler picks for execution — at any point of any run —
has all of its declared dependencies bound in the execution context at
that moment. -/
theorem C1_deps_bound_before_execution (c : Code) (ctx0 : Ctx)
    (h0 : ∀ i, i < c.instructions.length →
      ∀ d ∈ (c.insn i).deps, d ∉ c.generatedVars →
        ctxMem ctx0 d = true) :
    (∀ i ∈ c.initialExecFront, ∀ d ∈ (c.insn i).deps,
        d ∉ c.generatedVars) ∧
    (∀ fuel i, scheduledInsn c (runSched c fuel (initState c ctx0))
        = some i →
      ∀ d ∈ (c.insn i).deps,
        ctxMem (pollFutures c (runSched c fuel (initState c ctx0))).ctx d
          = true) := by
  have hchar : ∀ i ∈ c.initialExecFront, ∀ d ∈ (c.insn i).deps,
      d ∉ c.generatedVars := by
    intro i hi d hd
    have := (List.mem_filter.1 hi).2
    have h2 := List.all_eq_true.1 this d hd
    simpa using h2
  refine ⟨hchar, ?_⟩
  have hinit : FrontDepsBound c (initState c ctx0) := by
    intro i hi d hd
    have hlt : i < c.instructions.length :=
      List.mem_range.1 (List.mem_filter.1 hi).1
    exact h0 i hlt d hd (hchar i hi d hd)
  intro fuel i hsched d hd
  have hfdb : FrontDepsBound c (runSched c fuel (initState c ctx0)) :=
    runSched_preserves_fdb c fuel _ hinit
  have hfdb2 : FrontDepsBound c
      (pollFutures c (runSched c fuel (initState c ctx0))) :=
    pollFutures_preserves_fdb c _ hfdb
  unfold scheduledInsn at hsched
  by_cases ht : terminal (runSched c fuel (initState c ctx0))
  · rw [if_pos ht] at hsched; cases hsched
  · rw [if_neg ht] at hsched
    have hmem := argmin2_mem hsched
    rw [List.map_map] at hmem
    rcases List.mem_map.1 hmem with ⟨j, hj, hje⟩
    simp only [Function.comp_apply] at hje
    subst hje
    exact hfdb2 j hj d hd

/-- Witness for C1 at the linear chain code with input binding `x = 5`
and one scheduler step taken. -/
theorem C1_witness :
    (∀ i ∈ (chainCode Nat.succ Nat.succ Nat.succ 0 0 0).initialExecFront,
      ∀ d ∈ ((chainCode Nat.succ Nat.succ Nat.succ 0 0 0).insn i).deps,
        d ∉ (chainCode Nat.succ Nat.succ Nat.succ 0 0 0).generatedVars) ∧
    (∀ fuel i, scheduledInsn (chainCode Nat.succ Nat.succ Nat.succ 0 0 0)
        (runSched (chainCode Nat.succ Nat.succ Nat.succ 0 0 0) fuel
          (initState (chainCode Nat.succ Nat.succ Nat.succ 0 0 0)
            [("x", 5)])) = some i →
      ∀ d ∈ ((chainCode Nat.succ Nat.succ Nat.succ 0 0 0).insn i).deps,
        ctxMem (pollFutures (chainCode Nat.succ Nat.succ Nat.succ 0 0 0)
          (runSched (chainCode Nat.succ Nat.succ Nat.succ 0 0 0) fuel
            (initState (chainCode Nat.succ Nat.succ Nat.succ 0 0 0)
              [("x", 5)]))).ctx d = true) :=
  C1_deps_bound_before_execution (chainCode Nat.succ Nat.succ Nat.succ 0 0 0)
    [("x", 5)] (by decide)

/-! ### Partitioner invariants (C5) -/

theorem foldl_set_length (v : Nat) :
    ∀ (Δ : List Nat) (part : List Nat),
      (Δ.foldl (fun p el => p.set el v) part).length = part.length := by
  intro Δ
  induction Δ with
  | nil => intro part; rfl
  | cons a rest ih =>
    intro part
    rw [List.foldl_cons, ih, List.length_set]

theorem foldl_set_getD_not_mem (v : Nat) :
    ∀ (Δ : List Nat) (part : List Nat) (el : Nat), el ∉ Δ →
      (Δ.foldl (fun p e => p.set e v) part).getD el 0 = part.getD el 0 := by
  intro Δ
  induction Δ with
  | nil => intro part el _; rfl
  | cons a rest ih =>
    intro part el h
    rw [List.foldl_cons, ih _ el (fun hc => h (List.mem_cons_of_mem a hc)),
      List.getD_eq_getElem?_getD, List.getD_eq_getElem?_getD,
      List.getElem?_set_ne
        (fun he => h (by rw [← he]; exact List.mem_cons_self a rest))]

theorem foldl_set_getD_mem (v : Nat) :
    ∀ (Δ : List Nat) (part : List Nat) (el : Nat), el ∈ Δ →
      el < part.length →
      (Δ.foldl (fun p e => p.set e v) part).getD el 0 = v := by
  intro Δ
  induction Δ with
  | nil => intro part el h _; cases h
  | cons a rest ih =>
    intro part el h hlt
    rw [List.foldl_cons]
    by_cases h2 : el ∈ rest
    · exact ih _ el h2 (by rw [List.length_set]; exact hlt)
    · have ha : a = el := by
        rcases List.mem_cons.1 h with h3 | h3
        · exact h3.symm
        · exact absurd h3 h2
      subst ha
      rw [foldl_set_getD_not_mem v rest _ a h2,
        List.getD_eq_getElem?_getD, List.getElem?_set_eq hlt]
      rfl

/-- The effect of one `bfs` call: it extends the block by a duplicate-free
batch `Δ` of available nodes, removes exactly those nodes from the
available set, and never grows the block beyond `max_block_size`. -/
theorem bfsLoop_spec (adj : List (List Nat)) (m : Nat) :
    ∀ (avail queue result : List Nat),
      avail.Nodup → result.length < m →
      ∃ Δ : List Nat,
        (bfsLoop adj m avail queue result).result = result ++ Δ ∧
        Δ.Nodup ∧
        (∀ x ∈ Δ, x ∈ avail) ∧
        (bfsLoop adj m avail queue result).avail
          = avail.filter (fun x => !(Δ.contains x)) ∧
        (bfsLoop adj m avail queue result).result.length ≤ m := by
  intro avail queue result
  induction avail, queue, result using bfsLoop.induct adj m with
  | case1 result =>
    intro _ hlen
    refine ⟨[], by simp [bfsLoop], List.nodup_nil, by simp,
      by simp [bfsLoop], ?_⟩
    rw [bfsLoop]
    simpa using Nat.le_of_lt hlen
  | case2 result a rest h =>
    intro hnd _
    have hanr : a ∉ rest := (List.nodup_cons.1 hnd).1
    refine ⟨[a], ?_, List.nodup_singleton a, ?_, ?_, ?_⟩
    · rw [bfsLoop]; simp [h]
    · intro x hx
      simp only [List.mem_singleton] at hx
      subst hx
      exact List.mem_cons_self _ _
    · rw [bfsLoop]
      simp only [h, if_pos]
      rw [List.filter_cons]
      simp only [List.contains_cons, List.contains_nil, BEq.refl,
        Bool.true_or, Bool.not_true, Bool.false_eq_true, if_neg,
        not_false_iff, Bool.or_false]
      refine (List.filter_eq_self.2 ?_).symm
      intro x hx
      simp only [Bool.not_eq_true']
      exact beq_eq_false_iff_ne.2 (fun he => hanr (he ▸ hx))
    · rw [bfsLoop]
      simp [h]
  | case3 result a rest h ih =>
    intro hnd hlen
    have hanr : a ∉ rest := (List.nodup_cons.1 hnd).1
    have hlen2 : (result ++ [a]).length < m := by
      simp only [List.length_append, List.length_singleton]
      have : result.length + 1 ≤ m := hlen
      rcases Nat.lt_or_ge (result.length + 1) m with h2 | h2
      · exact h2
      · exfalso
        exact h (by simp; omega)
    rcases ih (List.nodup_cons.1 hnd).2 hlen2 with
      ⟨Δ2, hres, hnd2, hsub, hav, hle⟩
    refine ⟨a :: Δ2, ?_, ?_, ?_, ?_, ?_⟩
    · rw [bfsLoop]
      simp only [h, if_neg, not_false_iff]
      rw [hres]
      simp
    · exact List.nodup_cons.2 ⟨fun hc => hanr (hsub a hc), hnd2⟩
    · intro x hx
      rcases List.mem_cons.1 hx with rfl | hx2
      · exact List.mem_cons_self x rest
      · exact List.mem_cons_of_mem a (hsub x hx2)
    · rw [bfsLoop]
      simp only [h, if_neg, not_false_iff]
      rw [hav, List.filter_cons]
      simp only [List.contains_cons, BEq.refl, Bool.true_or, Bool.not_true,
        Bool.false_eq_true, if_neg, not_false_iff]
      refine List.filter_congr ?_
      intro x hx
      simp only [List.contains_cons, Bool.not_or]
      have : (x == a) = false := beq_eq_false_iff_ne.2
        (fun he => hanr (he ▸ hx))
      rw [this]
      simp
    · rw [bfsLoop]
      simp only [h, if_neg, not_false_iff]
      exact hle
  | case4 avail q₀ qrest result hcurr h =>
    intro hnd _
    refine ⟨[pickNode adj result (q₀ :: qrest)], ?_,
      List.nodup_singleton _, ?_, ?_, ?_⟩
    · rw [bfsLoop]; simp [hcurr, h]
    · intro x hx
      simp only [List.mem_singleton] at hx
      subst hx
      exact hcurr
    · rw [bfsLoop]
      simp only [hcurr, if_pos, h]
      rw [List.Nodup.erase_eq_filter hnd]
      refine List.filter_congr ?_
      intro x _
      simp only [List.contains_cons, List.contains_nil, Bool.or_false]
      rfl
    · rw [bfsLoop]
      simp [hcurr, h]
  | case5 avail q₀ qrest result hcurr h ih =>
    intro hnd hlen
    have hlen2 : (result ++ [pickNode adj result (q₀ :: qrest)]).length < m := by
      simp only [List.length_append, List.length_singleton]
      have : result.length + 1 ≤ m := hlen
      rcases Nat.lt_or_ge (result.length + 1) m with h2 | h2
      · exact h2
      · exfalso
        exact h (by simp; omega)
    rcases ih (List.Nodup.erase _ hnd) hlen2 with
      ⟨Δ2, hres, hnd2, hsub, hav, hle⟩
    have hC : pickNode adj result (q₀ :: qrest) ∉ Δ2 := by
      intro hc
      exact (List.Nodup.not_mem_erase hnd) (hsub _ hc)
    refine ⟨pickNode adj result (q₀ :: qrest) :: Δ2, ?_, ?_, ?_, ?_, ?_⟩
    · rw [bfsLoop]
      simp only [hcurr, if_pos, h, if_neg, not_false_iff]
      rw [hres]
      simp
    · exact List.nodup_cons.2 ⟨hC, hnd2⟩
    · intro x hx
      rcases List.mem_cons.1 hx with rfl | hx2
      · exact hcurr
      · exact List.mem_of_mem_erase (hsub x hx2)
    · rw [bfsLoop]
      simp only [hcurr, if_pos, h, if_neg, not_false_iff]
      rw [hav, List.Nodup.erase_eq_filter hnd, List.filter_filter]
      refine List.filter_congr ?_
      intro x _
      simp only [List.contains_cons, Bool.not_or]
      rw [Bool.and_comm]
      rfl
    · rw [bfsLoop]
      simp only [hcurr, if_pos, h, if_neg, not_false_iff]
      exact hle
  | case6 avail q₀ qrest result hcurr ih =>
    intro hnd hlen
    rcases ih hnd hlen with ⟨Δ2, hres, hnd2, hsub, hav, hle⟩
    refine ⟨Δ2, ?_, hnd2, hsub, ?_, ?_⟩
    · rw [bfsLoop]
      simp only [hcurr, if_neg, not_false_iff]
      exact hres
    · rw [bfsLoop]
      simp only [hcurr, if_neg, not_false_iff]
      exact hav
    · rw [bfsLoop]
      simp only [hcurr, if_neg, not_false_iff]
      exact hle

/-- `l.getD k 0` is a member for valid indices. -/
theorem getD_mem_of_lt {l : List Nat} {k : Nat} (h : k < l.length) :
    l.getD k 0 ∈ l := by
  rw [List.getD_eq_getElem?_getD, List.getElem?_eq_getElem h]
  exact List.getElem_mem h

/-- `getD` for lists of lists (same statement at another type). -/
theorem getD_mem_of_lt2 {l : List (List Nat)} {k : Nat} (h : k < l.length) :
    l.getD k [] ∈ l := by
  rw [List.getD_eq_getElem?_getD, List.getElem?_eq_getElem h]
  exact List.getElem_mem h

/-- The full effect of the `while avail_nodes:` partition loop: it emits
new blocks whose concatenation is a permutation of the available nodes,
none longer than `max_block_size`, and records in the partition array the
index of the block holding each element. -/
theorem partitionLoop_spec (adj : List (List Nat)) (m : Nat) (hm : 0 < m) :
    ∀ (avail : List Nat) (nextNode : Option Nat) (partition : List Nat)
      (blocks : List (List Nat)),
      avail.Nodup →
      (∀ x ∈ avail, x < partition.length) →
      (∀ k, k < blocks.length → ∀ el ∈ blocks.getD k [],
        partition.getD el 0 = k) →
      (∀ el ∈ blocks.flatten, el ∉ avail) →
      ∃ N : List (List Nat),
        (partitionLoop adj m avail nextNode partition blocks).blocks
          = blocks ++ N ∧
        N.flatten.Perm avail ∧
        (∀ b ∈ N, b.length ≤ m) ∧
        (partitionLoop adj m avail nextNode partition blocks).partition.length
          = partition.length ∧
        (∀ k, k < (partitionLoop adj m avail nextNode partition
            blocks).blocks.length →
          ∀ el ∈ (partitionLoop adj m avail nextNode partition
              blocks).blocks.getD k [],
            (partitionLoop adj m avail nextNode partition
              blocks).partition.getD el 0 = k) := by
  intro avail nextNode partition blocks
  induction avail, nextNode, partition, blocks
    using partitionLoop.induct adj m with
  | case1 nextNode partition blocks =>
    intro _ _ hcorr _
    refine ⟨[], by simp [partitionLoop], by simp, by simp,
      by simp [partitionLoop], ?_⟩
    simpa [partitionLoop] using hcorr
  | case2 a₀ arest nextNode partition blocks ih =>
    intro hnd hlt hcorr hdisj
    rcases bfsLoop_spec adj m (a₀ :: arest)
        [seedOf adj (a₀ :: arest) nextNode] [] hnd (by simpa using hm) with
      ⟨Δ, hres, hndD, hsubD, havr, hleD⟩
    simp only [List.nil_append] at hres
    -- the new partition array after recording the block
    have hplen2 : ((bfsLoop adj m (a₀ :: arest)
        [seedOf adj (a₀ :: arest) nextNode] []).result.foldl
          (fun part el => part.set el blocks.length) partition).length
        = partition.length := foldl_set_length _ _ _
    -- hypotheses of the recursive call
    have h1 : (bfsLoop adj m (a₀ :: arest)
        [seedOf adj (a₀ :: arest) nextNode] []).avail.Nodup := by
      rw [havr]; exact hnd.filter _
    have h2 : ∀ x ∈ (bfsLoop adj m (a₀ :: arest)
        [seedOf adj (a₀ :: arest) nextNode] []).avail,
        x < ((bfsLoop adj m (a₀ :: arest)
          [seedOf adj (a₀ :: arest) nextNode] []).result.foldl
            (fun part el => part.set el blocks.length) partition).length := by
      intro x hx
      rw [hplen2]
      rw [havr] at hx
      exact hlt x (List.mem_of_mem_filter hx)
    have h3 : ∀ k, k < (blocks ++ [(bfsLoop adj m (a₀ :: arest)
        [seedOf adj (a₀ :: arest) nextNode] []).result]).length →
        ∀ el ∈ (blocks ++ [(bfsLoop adj m (a₀ :: arest)
          [seedOf adj (a₀ :: arest) nextNode] []).result]).getD k [],
        ((bfsLoop adj m (a₀ :: arest)
          [seedOf adj (a₀ :: arest) nextNode] []).result.foldl
            (fun part el => part.set el blocks.length) partition).getD el 0
          = k := by
      intro k hk el hel
      rw [List.length_append, List.length_singleton] at hk
      rcases Nat.lt_or_ge k blocks.length with hk2 | hk2
      · rw [List.getD_append _ _ _ _ hk2] at hel
        have helf : el ∈ blocks.flatten :=
          List.mem_flatten.2 ⟨blocks.getD k [], getD_mem_of_lt2 hk2, hel⟩
        have helD : el ∉ Δ := fun hc => hdisj el helf (hsubD el hc)
        rw [hres, foldl_set_getD_not_mem _ _ _ _ helD]
        exact hcorr k hk2 el hel
      · have hkeq : k = blocks.length := by omega
        subst hkeq
        rw [List.getD_append_right _ _ _ _ hk2, Nat.sub_self] at hel
        simp only [List.getD_cons_zero] at hel
        rw [hres] at hel
        rw [hres, foldl_set_getD_mem _ _ _ _ hel
          (hlt el (hsubD el hel))]
    have h4 : ∀ el ∈ (blocks ++ [(bfsLoop adj m (a₀ :: arest)
        [seedOf adj (a₀ :: arest) nextNode] []).result]).flatten,
        el ∉ (bfsLoop adj m (a₀ :: arest)
          [seedOf adj (a₀ :: arest) nextNode] []).avail := by
      intro el hel hc
      rw [havr] at hc
      have hc2 := List.mem_filter.1 hc
      rcases List.mem_flatten.1 hel with ⟨b, hb, helb⟩
      rcases List.mem_append.1 hb with hb2 | hb2
      · exact hdisj el (List.mem_flatten.2 ⟨b, hb2, helb⟩) hc2.1
      · simp only [List.mem_singleton] at hb2
        subst hb2
        rw [hres] at helb
        have hcontains : Δ.contains el = true := List.elem_iff.2 helb
        rw [hcontains] at hc2
        simp at hc2
    rcases ih h1 h2 h3 h4 with ⟨N2, hblocks, hperm, hsize, hplen3, hcorr2⟩
    refine ⟨(bfsLoop adj m (a₀ :: arest)
        [seedOf adj (a₀ :: arest) nextNode] []).result :: N2, ?_, ?_, ?_,
        ?_, ?_⟩
    · rw [partitionLoop, hblocks, List.append_assoc]
      rfl
    · rw [hres]
      simp only [List.flatten_cons]
      refine (List.Perm.append_left Δ hperm).trans ?_
      rw [havr]
      have hdperm : Δ.Perm ((a₀ :: arest).filter
          (fun x => Δ.contains x)) := by
        refine List.perm_of_nodup_nodup_toFinset_eq hndD (hnd.filter _) ?_
        ext y
        simp only [List.mem_toFinset, List.mem_filter]
        constructor
        · intro hy
          exact ⟨hsubD y hy, List.elem_iff.2 hy⟩
        · intro hy
          exact List.elem_iff.1 hy.2
      exact (List.Perm.append_right _ hdperm).trans
        (List.filter_append_perm _ _)
    · intro b hb
      rcases List.mem_cons.1 hb with rfl | hb2
      · exact hleD
      · exact hsize b hb2
    · rw [partitionLoop, hplen3, hplen2]
    · rw [partitionLoop]
      exact hcorr2

/-- C5: for every adjacency graph on nodes `0 .. n-1` (in particular
every symmetric one) and every `max_block_size ≥ 1`,
`make_gpu_partition_greedy` returns `(partition, blocks)` such that the
concatenation of the emitted blocks is a permutation of `0 .. n-1` —
every node appears in exactly one emitted block (total block count `1`
per node) — no block holds more than `max_block_size` nodes, the
partition array has one entry per node, and `partition[el]` is the index
in `blocks` of the block containing `el`. -/
theorem C5_partition_complete_bounded (adj : List (List Nat)) (m : Nat)
    (hm : 1 ≤ m) :
    ((make_gpu_partition_greedy adj m).2.flatten).Perm
        (List.range adj.length) ∧
    (∀ el ∈ List.range adj.length,
      ((make_gpu_partition_greedy adj m).2.map (List.count el)).sum = 1) ∧
    (∀ b ∈ (make_gpu_partition_greedy adj m).2, b.length ≤ m) ∧
    (make_gpu_partition_greedy adj m).1.length = adj.length ∧
    (∀ k, k < (make_gpu_partition_greedy adj m).2.length →
      ∀ el ∈ (make_gpu_partition_greedy adj m).2.getD k [],
        (make_gpu_partition_greedy adj m).1.getD el 0 = k) := by
  rcases partitionLoop_spec adj m hm (List.range adj.length) none
      (List.replicate adj.length 0) [] (List.nodup_range _)
      (by intro x hx; simpa using List.mem_range.1 hx)
      (by intro k hk _ _; simp at hk)
      (by intro el hel; simp at hel) with
    ⟨N, hblocks, hperm, hsize, hplen, hcorr⟩
  rw [List.nil_append] at hblocks
  unfold make_gpu_partition_greedy
  rw [hblocks]
  refine ⟨hperm, ?_, hsize, ?_, ?_⟩
  · intro el hel
    rw [← List.count_flatten, hperm.count_eq el]
    exact List.count_eq_one_of_mem (List.nodup_range _) hel
  · rw [hplen, List.length_replicate]
  · rw [← hblocks]
    exact hcorr

/-- Witness for C5: a 3-node path-plus-isolated-node graph with block
size 2. -/
theorem C5_witness :
    ((make_gpu_partition_greedy [[1], [0], []] 2).2.flatten).Perm
        (List.range ([[1], [0], []] : List (List Nat)).length) ∧
    (∀ el ∈ List.range ([[1], [0], []] : List (List Nat)).length,
      ((make_gpu_partition_greedy [[1], [0], []] 2).2.map
        (List.count el)).sum = 1) ∧
    (∀ b ∈ (make_gpu_partition_greedy [[1], [0], []] 2).2,
      b.length ≤ 2) ∧
    (make_gpu_partition_greedy [[1], [0], []] 2).1.length
        = ([[1], [0], []] : List (List Nat)).length ∧
    (∀ k, k < (make_gpu_partition_greedy [[1], [0], []] 2).2.length →
      ∀ el ∈ (make_gpu_partition_greedy [[1], [0], []] 2).2.getD k [],
        (make_gpu_partition_greedy [[1], [0], []] 2).1.getD el 0 = k) :=
  C5_partition_complete_bounded [[1], [0], []] 2 (by decide)

/-! ### Termination and exactly-once execution (C9)

The well-formedness a compiled `Code` satisfies: globally duplicate-free
assignee names (`get_var_name` produces fresh `_expr%d` names), initial
bindings disjoint from generated names, dependencies covered by the
initial bindings or by earlier instructions (the compiler appends
instructions in dependency order), and executor methods yielding one
`(target, value)` pair per assignee. -/

/-- `ctxMem` through one extra binding, eliminated. -/
theorem ctxMem_cons_elim {p : String × Nat} {ctx : Ctx} {d : String}
    (h : ctxMem (p :: ctx) d = true) :
    p.1 = d ∨ ctxMem ctx d = true := by
  unfold ctxMem ctxLookup at h ⊢
  rw [List.find?_cons] at h
  by_cases hp : p.1 = d
  · exact Or.inl hp
  · right
    simpa [hp] using h

/-- A name not just bound keeps its `ctxMem` value. -/
theorem ctxMem_cons_ne {name : String} {v : Nat} {ctx : Ctx} {d : String}
    (hne : name ≠ d) : ctxMem ((name, v) :: ctx) d = ctxMem ctx d := by
  unfold ctxMem ctxLookup
  rw [List.find?_cons]
  simp [hne]

/-- The just-bound name is in the context. -/
theorem ctxMem_cons_self (name : String) (v : Nat) (ctx : Ctx) :
    ctxMem ((name, v) :: ctx) name = true := by
  unfold ctxMem ctxLookup
  rw [List.find?_cons]
  simp

/-- A bound name is the first component of some binding. -/
theorem ctxMem_exists {ctx : Ctx} {d : String} (h : ctxMem ctx d = true) :
    ∃ p ∈ ctx, p.1 = d := by
  unfold ctxMem ctxLookup at h
  cases hf : ctx.find? (fun p => p.1 = d) with
  | none => rw [hf] at h; simp at h
  | some p =>
    refine ⟨p, List.mem_of_find?_eq_some hf, ?_⟩
    simpa using List.find?_some hf

/-- A duplicate-free list contained in another is no longer than it. -/
theorem nodup_subset_length_le {α : Type} [DecidableEq α] {l m : List α}
    (hl : l.Nodup)
    (hsub : ∀ x ∈ l, x ∈ m) : l.length ≤ m.length := by
  classical
  calc l.length = l.toFinset.card := by rw [List.toFinset_card_of_nodup hl]
  _ ≤ m.toFinset.card := Finset.card_le_card
      (fun x hx => List.mem_toFinset.2 (hsub x (List.mem_toFinset.1 hx)))
  _ ≤ m.length := m.toFinset_card_le

/-- Generic membership for `getD` at a valid index. -/
theorem getD_mem_of_lt3 {α : Type} (d : α) {l : List α} {k : Nat}
    (h : k < l.length) : l.getD k d ∈ l := by
  rw [List.getD_eq_getElem?_getD, List.getElem?_eq_getElem h]
  exact List.getElem_mem h

/-- The assignees of a valid instruction are generated variables. -/
theorem assignee_mem_generated (c : Code) {i : Nat}
    (hi : i < c.instructions.length) {a : String}
    (ha : a ∈ (c.insn i).assignees) : a ∈ c.generatedVars := by
  refine List.mem_flatten.2 ⟨(c.insn i).assignees, ?_, ha⟩
  exact List.mem_map.2 ⟨c.insn i, getD_mem_of_lt3 _ hi, rfl⟩

/-- With globally duplicate-free assignees, each instruction has
duplicate-free assignees. -/
theorem assignees_nodup_of_generated_nodup (c : Code)
    (hW1 : c.generatedVars.Nodup) {i : Nat}
    (hi : i < c.instructions.length) : (c.insn i).assignees.Nodup := by
  have hmem : (c.insn i).assignees ∈ c.instructions.map
      (fun ins => ins.assignees) :=
    List.mem_map.2 ⟨c.insn i, getD_mem_of_lt3 _ hi, rfl⟩
  exact ((List.nodup_flatten.1 hW1).1 _ hmem)

/-- With globally duplicate-free assignees, no name is assigned by two
distinct instructions. -/
theorem assignees_disjoint_of_generated_nodup (c : Code)
    (hW1 : c.generatedVars.Nodup) {i j : Nat}
    (hi : i < c.instructions.length) (hj : j < c.instructions.length)
    (hij : i ≠ j) {a : String} (hai : a ∈ (c.insn i).assignees)
    (haj : a ∈ (c.insn j).assignees) : False := by
  have hpw := (List.nodup_flatten.1 hW1).2
  rw [List.pairwise_iff_getElem] at hpw
  have hmap : ∀ k (hk : k < c.instructions.length),
      getElem (c.instructions.map (fun ins => ins.assignees)) k
          (by simpa using hk)
        = (c.insn k).assignees := by
    intro k hk
    rw [List.getElem_map]
    show _ = (c.instructions.getD k _).assignees
    rw [List.getD_eq_getElem?_getD, List.getElem?_eq_getElem hk]
    rfl
  rcases Nat.lt_or_ge i j with hlt | hge
  · have := hpw i j (by simpa using hi) (by simpa using hj) hlt
    rw [hmap i hi, hmap j hj] at this
    exact this hai haj
  · have hlt2 : j < i := by omega
    have := hpw j i (by simpa using hj) (by simpa using hi) hlt2
    rw [hmap j hj, hmap i hi] at this
    exact this haj hai

/-- The scheduler-loop invariant, stated over the components of the
execution state (the futures component is passed explicitly so that it
can denote the conceptual pending set during the poll phase). -/
structure Inv (c : Code) (ctx₀ : Ctx) (front : List Nat)
    (futs : List FutEntry) (ctx : Ctx) (done : List Nat) : Prop where
  doneNodup : done.Nodup
  doneLt : ∀ i ∈ done, i < c.instructions.length
  frontLt : ∀ i ∈ front, i < c.instructions.length
  frontNodup : front.Nodup
  frontNotDone : ∀ i ∈ front, i ∉ done
  frontDeps : ∀ i ∈ front, ∀ d ∈ (c.insn i).deps, ctxMem ctx d = true
  ctxNames : ∀ n, ctxMem ctx n = true →
    ctxMem ctx₀ n = true ∨ ∃ i ∈ done, n ∈ (c.insn i).assignees
  ctxInit : ∀ n, ctxMem ctx₀ n = true → ctxMem ctx n = true
  doneDeps : ∀ i ∈ done, ∀ d ∈ (c.insn i).deps, ctxMem ctx d = true
  futJust : ∀ f ∈ futs, ∃ i ∈ done, f.1 ∈ (c.insn i).assignees
  futFresh : ∀ f ∈ futs, ctxMem ctx f.1 = false
  futNodup : (futs.map Prod.fst).Nodup
  ready : ∀ i, i < c.instructions.length → i ∉ done →
    (∀ d ∈ (c.insn i).deps, ctxMem ctx d = true) → i ∈ front

/-- Instructions already executed have all their assignees either bound
or pending as a future, except possibly for names in `pending` (the
targets an instruction currently being executed has not yet yielded). -/
def DoneAssignedExcept (c : Code) (futs : List FutEntry) (ctx : Ctx)
    (done : List Nat) (pending : List String) : Prop :=
  ∀ i ∈ done, ∀ a ∈ (c.insn i).assignees,
    ctxMem ctx a = true ∨ (∃ cd v, (a, cd, v) ∈ futs) ∨ a ∈ pending

/-- The `make_available` scan only appends to the ready set. -/
theorem foldl_addFront_subset (c : Code) (ctx2 : Ctx) :
    ∀ (cands fr : List Nat) (i : Nat), i ∈ fr →
      i ∈ cands.foldl (fun fr cand =>
        if cand ∈ fr then fr
        else if (c.insn cand).deps.all (fun d => ctxMem ctx2 d) then
          fr ++ [cand]
        else fr) fr := by
  intro cands
  induction cands with
  | nil => intro fr i h; exact h
  | cons cand rest ih =>
    intro fr i h
    simp only [List.foldl_cons]
    by_cases hc : cand ∈ fr
    · rw [if_pos hc]; exact ih fr i h
    · rw [if_neg hc]
      by_cases hd : (c.insn cand).deps.all (fun d => ctxMem ctx2 d) = true
      · rw [if_pos hd]
        exact ih _ i (List.mem_append.2 (Or.inl h))
      · rw [if_neg hd]; exact ih fr i h

/-- Members of the scanned ready set come from the old set or the
candidate list. -/
theorem foldl_addFront_mem_or (c : Code) (ctx2 : Ctx) :
    ∀ (cands fr : List Nat) (i : Nat),
      i ∈ cands.foldl (fun fr cand =>
        if cand ∈ fr then fr
        else if (c.insn cand).deps.all (fun d => ctxMem ctx2 d) then
          fr ++ [cand]
        else fr) fr →
      i ∈ fr ∨ i ∈ cands := by
  intro cands
  induction cands with
  | nil => intro fr i h; exact Or.inl h
  | cons cand rest ih =>
    intro fr i h
    simp only [List.foldl_cons] at h
    by_cases hc : cand ∈ fr
    · rw [if_pos hc] at h
      rcases ih fr i h with h2 | h2
      · exact Or.inl h2
      · exact Or.inr (List.mem_cons_of_mem _ h2)
    · rw [if_neg hc] at h
      by_cases hd : (c.insn cand).deps.all (fun d => ctxMem ctx2 d) = true
      · rw [if_pos hd] at h
        rcases ih _ i h with h2 | h2
        · rcases List.mem_append.1 h2 with h3 | h3
          · exact Or.inl h3
          · simp only [List.mem_singleton] at h3
            subst h3
            exact Or.inr (List.mem_cons_self _ _)
        · exact Or.inr (List.mem_cons_of_mem _ h2)
      · rw [if_neg hd] at h
        rcases ih fr i h with h2 | h2
        · exact Or.inl h2
        · exact Or.inr (List.mem_cons_of_mem _ h2)

/-- A candidate with all dependencies bound ends up in the ready set. -/
theorem foldl_addFront_complete (c : Code) (ctx2 : Ctx) :
    ∀ (cands fr : List Nat) (i : Nat), i ∈ cands →
      ((c.insn i).deps.all (fun d => ctxMem ctx2 d) = true) →
      i ∈ cands.foldl (fun fr cand =>
        if cand ∈ fr then fr
        else if (c.insn cand).deps.all (fun d => ctxMem ctx2 d) then
          fr ++ [cand]
        else fr) fr := by
  intro cands
  induction cands with
  | nil => intro fr i h; cases h
  | cons cand rest ih =>
    intro fr i h hall
    simp only [List.foldl_cons]
    rcases List.mem_cons.1 h with rfl | h2
    · by_cases hc : i ∈ fr
      · rw [if_pos hc]
        exact foldl_addFront_subset c ctx2 rest fr i hc
      · rw [if_neg hc, if_pos hall]
        exact foldl_addFront_subset c ctx2 rest _ i
          (List.mem_append.2 (Or.inr (List.mem_singleton.2 rfl)))
    · by_cases hc : cand ∈ fr
      · rw [if_pos hc]; exact ih fr i h2 hall
      · rw [if_neg hc]
        by_cases hd : (c.insn cand).deps.all (fun d => ctxMem ctx2 d) = true
        · rw [if_pos hd]; exact ih _ i h2 hall
        · rw [if_neg hd]; exact ih fr i h2 hall

/-- The scan preserves duplicate-freeness of the ready set. -/
theorem foldl_addFront_nodup (c : Code) (ctx2 : Ctx) :
    ∀ (cands fr : List Nat), fr.Nodup →
      (cands.foldl (fun fr cand =>
        if cand ∈ fr then fr
        else if (c.insn cand).deps.all (fun d => ctxMem ctx2 d) then
          fr ++ [cand]
        else fr) fr).Nodup := by
  intro cands
  induction cands with
  | nil => intro fr h; exact h
  | cons cand rest ih =>
    intro fr h
    simp only [List.foldl_cons]
    by_cases hc : cand ∈ fr
    · rw [if_pos hc]; exact ih fr h
    · rw [if_neg hc]
      by_cases hd : (c.insn cand).deps.all (fun d => ctxMem ctx2 d) = true
      · rw [if_pos hd]
        refine ih _ ?_
        rw [List.nodup_append]
        exact ⟨h, List.nodup_singleton _, by
          intro x hx hxc
          simp only [List.mem_singleton] at hxc
          subst hxc
          exact hc hx⟩
      · rw [if_neg hd]; exact ih fr h

/-- Binding a fresh name transports the except-list invariant: future
entries for the name may be dropped, and the name may leave the pending
list. -/
theorem DA_bind (c : Code) (futsIn futsOut : List FutEntry) (ctx : Ctx)
    (done : List Nat) (pendIn pendOut : List String) (name : String)
    (v : Nat)
    (hDA : DoneAssignedExcept c futsIn ctx done pendIn)
    (hfut : ∀ f ∈ futsIn, f ∈ futsOut ∨ f.1 = name)
    (hpend : ∀ t ∈ pendIn, t ∈ pendOut ∨ t = name) :
    DoneAssignedExcept c futsOut ((name, v) :: ctx) done pendOut := by
  intro i hi a ha
  rcases hDA i hi a ha with h | ⟨cd, v2, hf⟩ | hp
  · left
    by_cases hna : name = a
    · subst hna; exact ctxMem_cons_self _ _ _
    · rw [ctxMem_cons_ne hna]; exact h
  · rcases hfut _ hf with h2 | h2
    · exact Or.inr (Or.inl ⟨cd, v2, h2⟩)
    · left
      simp only at h2
      subst h2
      exact ctxMem_cons_self _ _ _
  · rcases hpend _ hp with h2 | h2
    · exact Or.inr (Or.inr h2)
    · left
      subst h2
      exact ctxMem_cons_self _ _ _

/-- Appending a future for a pending target transports the except-list
invariant. -/
theorem DA_fut_append (c : Code) (futs : List FutEntry) (ctx : Ctx)
    (done : List Nat) (pend : List String) (t : String) (cd v : Nat)
    (hDA : DoneAssignedExcept c futs ctx done (t :: pend)) :
    DoneAssignedExcept c (futs ++ [(t, cd, v)]) ctx done pend := by
  intro i hi a ha
  rcases hDA i hi a ha with h | ⟨cd2, v2, hf⟩ | hp
  · exact Or.inl h
  · exact Or.inr (Or.inl ⟨cd2, v2, List.mem_append.2 (Or.inl hf)⟩)
  · rcases List.mem_cons.1 hp with rfl | h2
    · exact Or.inr (Or.inl ⟨cd, v, List.mem_append.2 (Or.inr
        (List.mem_singleton.2 rfl))⟩)
    · exact Or.inr (Or.inr h2)

/-- Recording a new instruction whose assignees are all pending
transports the except-list invariant. -/
theorem DA_done_append (c : Code) (futs : List FutEntry) (ctx : Ctx)
    (done : List Nat) (pend : List String) (i : Nat)
    (hDA : DoneAssignedExcept c futs ctx done pend)
    (hnew : ∀ a ∈ (c.insn i).assignees, a ∈ pend) :
    DoneAssignedExcept c futs ctx (done ++ [i]) pend := by
  intro j hj a ha
  rcases List.mem_append.1 hj with hj2 | hj2
  · exact hDA j hj2 a ha
  · simp only [List.mem_singleton] at hj2
    subst hj2
    exact Or.inr (Or.inr (hnew a ha))

theorem makeAvailable_front (c : Code) (st : ExecState) (name : String)
    (v : Nat) :
    (makeAvailable c st name v).front
      = (c.insnsDependingOn name).foldl (fun fr cand =>
          if cand ∈ fr then fr
          else if (c.insn cand).deps.all
              (fun d => ctxMem ((name, v) :: st.ctx) d) then
            fr ++ [cand]
          else fr) st.front := rfl

/-- Members of `insns_depending_on[name]` are valid indices that depend
on `name`. -/
theorem insnsDependingOn_mem {c : Code} {name : String} {i : Nat}
    (h : i ∈ c.insnsDependingOn name) :
    i < c.instructions.length ∧ name ∈ (c.insn i).deps := by
  have h2 := List.mem_filter.1 h
  exact ⟨List.mem_range.1 h2.1, List.elem_iff.1 h2.2⟩

/-- Conversely, a valid index depending on `name` is a candidate. -/
theorem insnsDependingOn_mem_of {c : Code} {name : String} {i : Nat}
    (hi : i < c.instructions.length) (hd : name ∈ (c.insn i).deps) :
    i ∈ c.insnsDependingOn name :=
  List.mem_filter.2 ⟨List.mem_range.2 hi, List.elem_iff.2 hd⟩

/-- `make_available` preserves the scheduler invariant when binding a
fresh name assigned by a completed instruction; future entries for that
name may simultaneously be removed from the conceptual pending set. -/
theorem makeAvailable_inv_core (c : Code) (ctx₀ : Ctx) (st : ExecState)
    (name : String) (v : Nat) (futsIn futsOut : List FutEntry)
    (hInv : Inv c ctx₀ st.front futsIn st.ctx st.done)
    (hfresh : ctxMem st.ctx name = false)
    (hjust : ∃ i ∈ st.done, name ∈ (c.insn i).assignees)
    (hOutIn : ∀ f ∈ futsOut, f ∈ futsIn)
    (hOutNodup : (futsOut.map Prod.fst).Nodup)
    (hnotf : name ∉ futsOut.map Prod.fst) :
    Inv c ctx₀ (makeAvailable c st name v).front futsOut
      ((name, v) :: st.ctx) st.done := by
  rw [makeAvailable_front]
  constructor
  case doneNodup => exact hInv.doneNodup
  case doneLt => exact hInv.doneLt
  case frontLt =>
    intro i hi
    rcases foldl_addFront_mem_or c _ _ _ i hi with h | h
    · exact hInv.frontLt i h
    · exact (insnsDependingOn_mem h).1
  case frontNodup => exact foldl_addFront_nodup c _ _ _ hInv.frontNodup
  case frontNotDone =>
    intro i hi hdone
    rcases foldl_addFront_mem_or c _ _ _ i hi with h | h
    · exact hInv.frontNotDone i h hdone
    · have hd := (insnsDependingOn_mem h).2
      have := hInv.doneDeps i hdone name hd
      rw [hfresh] at this
      cases this
  case frontDeps =>
    intro i hi d hd
    rcases foldl_addFront_mem c _ _ _ i hi with h | h
    · exact ctxMem_cons _ _ _ (hInv.frontDeps i h d hd)
    · exact List.all_eq_true.1 h d hd
  case ctxNames =>
    intro n hn
    rcases ctxMem_cons_elim hn with h | h
    · simp only at h
      subst h
      rcases hjust with ⟨i, hi, ha⟩
      exact Or.inr ⟨i, hi, ha⟩
    · exact hInv.ctxNames n h
  case ctxInit =>
    intro n hn
    exact ctxMem_cons _ _ _ (hInv.ctxInit n hn)
  case doneDeps =>
    intro i hi d hd
    exact ctxMem_cons _ _ _ (hInv.doneDeps i hi d hd)
  case futJust =>
    intro f hf
    exact hInv.futJust f (hOutIn f hf)
  case futFresh =>
    intro f hf
    have hne : name ≠ f.1 := by
      intro he
      exact hnotf (he ▸ List.mem_map.2 ⟨f, hf, rfl⟩)
    rw [ctxMem_cons_ne hne]
    exact hInv.futFresh f (hOutIn f hf)
  case futNodup => exact hOutNodup
  case ready =>
    intro i hi hdone hdeps
    by_cases hold : ∀ d ∈ (c.insn i).deps, ctxMem st.ctx d = true
    · exact foldl_addFront_subset c _ _ _ i (hInv.ready i hi hdone hold)
    · push_neg at hold
      rcases hold with ⟨d, hd, hdf⟩
      have hd2 := hdeps d hd
      rcases ctxMem_cons_elim hd2 with h | h
      · simp only at h
        subst h
        exact foldl_addFront_complete c _ _ _ i
          (insnsDependingOn_mem_of hi hd)
          (List.all_eq_true.2 hdeps)
      · exact absurd h hdf

/-- Appending a pending future for a fresh, justified target preserves
the invariant. -/
theorem futAppend_inv (c : Code) (ctx₀ : Ctx) (front : List Nat)
    (futs : List FutEntry) (ctx : Ctx) (done : List Nat) (t : String)
    (cd v : Nat)
    (hInv : Inv c ctx₀ front futs ctx done)
    (hjust : ∃ i ∈ done, t ∈ (c.insn i).assignees)
    (hfresh : ctxMem ctx t = false)
    (hnotf : t ∉ futs.map Prod.fst) :
    Inv c ctx₀ front (futs ++ [(t, cd, v)]) ctx done := by
  constructor
  case doneNodup => exact hInv.doneNodup
  case doneLt => exact hInv.doneLt
  case frontLt => exact hInv.frontLt
  case frontNodup => exact hInv.frontNodup
  case frontNotDone => exact hInv.frontNotDone
  case frontDeps => exact hInv.frontDeps
  case ctxNames => exact hInv.ctxNames
  case ctxInit => exact hInv.ctxInit
  case doneDeps => exact hInv.doneDeps
  case futJust =>
    intro f hf
    rcases List.mem_append.1 hf with h | h
    · exact hInv.futJust f h
    · simp only [List.mem_singleton] at h
      subst h
      exact hjust
  case futFresh =>
    intro f hf
    rcases List.mem_append.1 hf with h | h
    · exact hInv.futFresh f h
    · simp only [List.mem_singleton] at h
      subst h
      exact hfresh
  case futNodup =>
    rw [List.map_append]
    rw [List.nodup_append]
    exact ⟨hInv.futNodup, List.nodup_singleton _, by
      intro x hx hxc
      simp only [List.map_cons, List.map_nil, List.mem_singleton] at hxc
      subst hxc
      exact hnotf hx⟩
  case ready => exact hInv.ready

/-- One step of the `(target, value)` loop of instruction execution. -/
def execPairStep (c : Code) (s : ExecState) (tv : String × Outcome) :
    ExecState :=
  match tv.2 with
  | .fut cd v => { s with futures := s.futures ++ [(tv.1, cd, v)] }
  | .val v => makeAvailable c s tv.1 v

/-- `execInsn` unfolded through `execPairStep`. -/
theorem execInsn_eq (c : Code) (st : ExecState) (i : Nat) :
    execInsn c st i =
      ((c.insn i).assignees.zip ((c.insn i).exec st.ctx)).foldl
        (execPairStep c)
        { st with front := st.front.erase i, done := st.done ++ [i] } := rfl

/-- The `(target, value)` loop preserves the invariant and, once all
pairs are processed, every target is bound or pending. -/
theorem execFold_inv (c : Code) (ctx₀ : Ctx) :
    ∀ (pairs : List (String × Outcome)) (st : ExecState),
      Inv c ctx₀ st.front st.futures st.ctx st.done →
      DoneAssignedExcept c st.futures st.ctx st.done (pairs.map Prod.fst) →
      (pairs.map Prod.fst).Nodup →
      (∀ t ∈ pairs.map Prod.fst, ctxMem st.ctx t = false) →
      (∀ t ∈ pairs.map Prod.fst, t ∉ st.futures.map Prod.fst) →
      (∀ t ∈ pairs.map Prod.fst, ∃ j ∈ st.done, t ∈ (c.insn j).assignees) →
      Inv c ctx₀ (pairs.foldl (execPairStep c) st).front
        (pairs.foldl (execPairStep c) st).futures
        (pairs.foldl (execPairStep c) st).ctx
        (pairs.foldl (execPairStep c) st).done ∧
      DoneAssignedExcept c (pairs.foldl (execPairStep c) st).futures
        (pairs.foldl (execPairStep c) st).ctx
        (pairs.foldl (execPairStep c) st).done [] ∧
      (pairs.foldl (execPairStep c) st).done = st.done ∧
      (pairs.foldl (execPairStep c) st).futures.length
        ≤ st.futures.length + pairs.length := by
  intro pairs
  induction pairs with
  | nil =>
    intro st hInv hDA _ _ _ _
    exact ⟨hInv, hDA, rfl, by simp⟩
  | cons p rest ih =>
    intro st hInv hDA hnd hP2 hP3 hP4
    obtain ⟨t, o⟩ := p
    simp only [List.map_cons, List.nodup_cons] at hnd
    have ht2 : ctxMem st.ctx t = false := hP2 t (by simp)
    have ht3 : t ∉ st.futures.map Prod.fst := hP3 t (by simp)
    have ht4 : ∃ j ∈ st.done, t ∈ (c.insn j).assignees := hP4 t (by simp)
    simp only [List.foldl_cons]
    cases o with
    | val v =>
      have hstep : execPairStep c st (t, Outcome.val v)
          = makeAvailable c st t v := rfl
      rw [hstep]
      have hInv2 : Inv c ctx₀ (makeAvailable c st t v).front
          (makeAvailable c st t v).futures (makeAvailable c st t v).ctx
          (makeAvailable c st t v).done :=
        makeAvailable_inv_core c ctx₀ st t v st.futures st.futures hInv
          ht2 ht4 (fun f hf => hf) hInv.futNodup ht3
      have hDA2 : DoneAssignedExcept c (makeAvailable c st t v).futures
          (makeAvailable c st t v).ctx (makeAvailable c st t v).done
          (rest.map Prod.fst) := by
        refine DA_bind c st.futures st.futures st.ctx st.done
          (t :: rest.map Prod.fst) (rest.map Prod.fst) t v hDA
          (fun f hf => Or.inl hf) ?_
        intro x hx
        rcases List.mem_cons.1 hx with rfl | hx2
        · exact Or.inr rfl
        · exact Or.inl hx2
      have hres := ih (makeAvailable c st t v) hInv2 hDA2 hnd.2
        (by
          intro t2 ht2m
          have hne : t ≠ t2 := fun he => hnd.1 (he ▸ ht2m)
          show ctxMem ((t, v) :: st.ctx) t2 = false
          rw [ctxMem_cons_ne hne]
          exact hP2 t2 (List.mem_cons_of_mem _ ht2m))
        (fun t2 ht2m => hP3 t2 (List.mem_cons_of_mem _ ht2m))
        (fun t2 ht2m => hP4 t2 (List.mem_cons_of_mem _ ht2m))
      refine ⟨hres.1, hres.2.1, hres.2.2.1, ?_⟩
      refine Nat.le_trans hres.2.2.2 ?_
      show st.futures.length + rest.length
        ≤ st.futures.length + (rest.length + 1)
      omega
    | fut cd v =>
      have hstep : execPairStep c st (t, Outcome.fut cd v)
          = { st with futures := st.futures ++ [(t, cd, v)] } := rfl
      rw [hstep]
      have hInv2 : Inv c ctx₀ st.front (st.futures ++ [(t, cd, v)])
          st.ctx st.done :=
        futAppend_inv c ctx₀ st.front st.futures st.ctx st.done t cd v
          hInv ht4 ht2 ht3
      have hDA2 : DoneAssignedExcept c (st.futures ++ [(t, cd, v)])
          st.ctx st.done (rest.map Prod.fst) :=
        DA_fut_append c st.futures st.ctx st.done (rest.map Prod.fst)
          t cd v hDA
      have hres := ih { st with futures := st.futures ++ [(t, cd, v)] }
        hInv2 hDA2 hnd.2
        (fun t2 ht2m => hP2 t2 (List.mem_cons_of_mem _ ht2m))
        (by
          intro t2 ht2m
          show t2 ∉ (st.futures ++ [(t, cd, v)]).map Prod.fst
          rw [List.map_append]
          intro hc
          rcases List.mem_append.1 hc with h | h
          · exact hP3 t2 (List.mem_cons_of_mem _ ht2m) h
          · simp only [List.map_cons, List.map_nil,
              List.mem_singleton] at h
            subst h
            exact hnd.1 ht2m)
        (fun t2 ht2m => hP4 t2 (List.mem_cons_of_mem _ ht2m))
      refine ⟨hres.1, hres.2.1, hres.2.2.1, ?_⟩
      refine Nat.le_trans hres.2.2.2 ?_
      show (st.futures ++ [(t, cd, v)]).length + rest.length
        ≤ st.futures.length + (rest.length + 1)
      rw [List.length_append]
      simp
      omega

/-- Weakening the pending list of the except-list invariant. -/
theorem DA_mono (c : Code) (futs : List FutEntry) (ctx : Ctx)
    (done : List Nat) (pendOut : List String)
    (hDA : DoneAssignedExcept c futs ctx done []) :
    DoneAssignedExcept c futs ctx done pendOut := by
  intro i hi a ha
  rcases hDA i hi a ha with h | h | h
  · exact Or.inl h
  · exact Or.inr (Or.inl h)
  · cases h

/-- Executing a ready instruction preserves the invariant, marks it done,
and adds at most one pending future per assignee. -/
theorem execInsn_inv (c : Code) (ctx₀ : Ctx) (st : ExecState) (i : Nat)
    (hW1 : c.generatedVars.Nodup)
    (hW2 : ∀ p ∈ ctx₀, p.1 ∉ c.generatedVars)
    (hW4 : ∀ j, j < c.instructions.length → ∀ ctx,
      ((c.insn j).exec ctx).length = (c.insn j).assignees.length)
    (hInv : Inv c ctx₀ st.front st.futures st.ctx st.done)
    (hDA : DoneAssignedExcept c st.futures st.ctx st.done [])
    (hi : i ∈ st.front) :
    Inv c ctx₀ (execInsn c st i).front (execInsn c st i).futures
      (execInsn c st i).ctx (execInsn c st i).done ∧
    DoneAssignedExcept c (execInsn c st i).futures (execInsn c st i).ctx
      (execInsn c st i).done [] ∧
    (execInsn c st i).done = st.done ++ [i] ∧
    (execInsn c st i).futures.length ≤ st.futures.length
      + (c.insn i).assignees.length := by
  have hilen := hInv.frontLt i hi
  have hidone := hInv.frontNotDone i hi
  have hpairs : ((c.insn i).assignees.zip
      ((c.insn i).exec st.ctx)).map Prod.fst = (c.insn i).assignees :=
    List.map_fst_zip _ _ (by rw [hW4 i hilen])
  have hplen : ((c.insn i).assignees.zip
      ((c.insn i).exec st.ctx)).length = (c.insn i).assignees.length := by
    rw [List.length_zip, hW4 i hilen, Nat.min_self]
  have hfreshA : ∀ t ∈ (c.insn i).assignees, ctxMem st.ctx t = false := by
    intro t ht
    cases hmem : ctxMem st.ctx t with
    | false => rfl
    | true =>
      exfalso
      rcases hInv.ctxNames t hmem with h | ⟨j, hj, ha⟩
      · rcases ctxMem_exists h with ⟨p, hp, hpe⟩
        exact hW2 p hp (hpe ▸ assignee_mem_generated c hilen ht)
      · exact assignees_disjoint_of_generated_nodup c hW1
          (hInv.doneLt j hj) hilen (fun he => hidone (he ▸ hj)) ha ht
  have hnotfA : ∀ t ∈ (c.insn i).assignees,
      t ∉ st.futures.map Prod.fst := by
    intro t ht hc
    rcases List.mem_map.1 hc with ⟨f, hf, hfe⟩
    rcases hInv.futJust f hf with ⟨j, hj, ha⟩
    rw [hfe] at ha
    exact assignees_disjoint_of_generated_nodup c hW1
      (hInv.doneLt j hj) hilen (fun he => hidone (he ▸ hj)) ha ht
  have hInv1 : Inv c ctx₀ (st.front.erase i) st.futures st.ctx
      (st.done ++ [i]) := by
    constructor
    case doneNodup =>
      rw [List.nodup_append]
      exact ⟨hInv.doneNodup, List.nodup_singleton _, by
        intro x hx hxc
        simp only [List.mem_singleton] at hxc
        subst hxc
        exact hidone hx⟩
    case doneLt =>
      intro j hj
      rcases List.mem_append.1 hj with h | h
      · exact hInv.doneLt j h
      · simp only [List.mem_singleton] at h
        subst h
        exact hilen
    case frontLt =>
      intro j hj
      exact hInv.frontLt j (List.mem_of_mem_erase hj)
    case frontNodup => exact hInv.frontNodup.erase i
    case frontNotDone =>
      intro j hj hc
      have hj2 := (List.Nodup.mem_erase_iff hInv.frontNodup).1 hj
      rcases List.mem_append.1 hc with h | h
      · exact hInv.frontNotDone j hj2.2 h
      · simp only [List.mem_singleton] at h
        exact hj2.1 h
    case frontDeps =>
      intro j hj
      exact hInv.frontDeps j (List.mem_of_mem_erase hj)
    case ctxNames =>
      intro n hn
      rcases hInv.ctxNames n hn with h | ⟨j, hj, ha⟩
      · exact Or.inl h
      · exact Or.inr ⟨j, List.mem_append.2 (Or.inl hj), ha⟩
    case ctxInit => exact hInv.ctxInit
    case doneDeps =>
      intro j hj
      rcases List.mem_append.1 hj with h | h
      · exact hInv.doneDeps j h
      · simp only [List.mem_singleton] at h
        subst h
        exact hInv.frontDeps j hi
    case futJust =>
      intro f hf
      rcases hInv.futJust f hf with ⟨j, hj, ha⟩
      exact ⟨j, List.mem_append.2 (Or.inl hj), ha⟩
    case futFresh => exact hInv.futFresh
    case futNodup => exact hInv.futNodup
    case ready =>
      intro j hjlen hjdone hjdeps
      have hjd : j ∉ st.done :=
        fun hc => hjdone (List.mem_append.2 (Or.inl hc))
      have hji : j ≠ i := by
        intro he
        exact hjdone (List.mem_append.2 (Or.inr
          (List.mem_singleton.2 he)))
      exact (List.Nodup.mem_erase_iff hInv.frontNodup).2
        ⟨hji, hInv.ready j hjlen hjd hjdeps⟩
  have hDA1 : DoneAssignedExcept c st.futures st.ctx (st.done ++ [i])
      (((c.insn i).assignees.zip ((c.insn i).exec st.ctx)).map
        Prod.fst) := by
    rw [hpairs]
    exact DA_done_append c st.futures st.ctx st.done _ i
      (DA_mono c st.futures st.ctx st.done _ hDA) (fun a ha => ha)
  have hfold := execFold_inv c ctx₀
    ((c.insn i).assignees.zip ((c.insn i).exec st.ctx))
    { st with front := st.front.erase i, done := st.done ++ [i] }
    hInv1 hDA1 (by rw [hpairs]; exact
      assignees_nodup_of_generated_nodup c hW1 hilen)
    (by rw [hpairs]; exact hfreshA)
    (by rw [hpairs]; exact hnotfA)
    (by
      rw [hpairs]
      intro t ht
      exact ⟨i, List.mem_append.2 (Or.inr (List.mem_singleton.2 rfl)),
        ht⟩)
  rw [execInsn_eq]
  refine ⟨hfold.1, hfold.2.1, hfold.2.2.1, ?_⟩
  refine Nat.le_trans hfold.2.2.2 ?_
  rw [hplen]

/-- Polling never touches the futures field of the threaded state. -/
theorem pollLoop_futures_eq (c : Code) :
    ∀ (fs : List FutEntry) (st : ExecState),
      (pollLoop c fs st).2.futures = st.futures := by
  intro fs
  induction fs with
  | nil => intro st; rfl
  | cons f rest ih =>
    obtain ⟨t, cd, v⟩ := f
    intro st
    simp only [pollLoop]
    by_cases hcd : cd = 0
    · rw [if_pos hcd, ih]
      rfl
    · rw [if_neg hcd]
      cases hpl : pollLoop c rest st with
      | mk fs2 st2 =>
        have := ih st
        rw [hpl] at this
        simpa using this

/-- Polling never touches the done trace. -/
theorem pollLoop_done_eq (c : Code) :
    ∀ (fs : List FutEntry) (st : ExecState),
      (pollLoop c fs st).2.done = st.done := by
  intro fs
  induction fs with
  | nil => intro st; rfl
  | cons f rest ih =>
    obtain ⟨t, cd, v⟩ := f
    intro st
    simp only [pollLoop]
    by_cases hcd : cd = 0
    · rw [if_pos hcd, ih]
      rfl
    · rw [if_neg hcd]
      cases hpl : pollLoop c rest st with
      | mk fs2 st2 =>
        have := ih st
        rw [hpl] at this
        simpa using this

/-- Polling is oblivious to the futures field of the threaded state. -/
theorem pollLoop_frame (c : Code) :
    ∀ (fs : List FutEntry) (st : ExecState) (X : List FutEntry),
      pollLoop c fs { st with futures := X }
        = ((pollLoop c fs st).1,
           { (pollLoop c fs st).2 with futures := X }) := by
  intro fs
  induction fs with
  | nil => intro st X; rfl
  | cons f rest ih =>
    obtain ⟨t, cd, v⟩ := f
    intro st X
    simp only [pollLoop]
    by_cases hcd : cd = 0
    · rw [if_pos hcd, if_pos hcd]
      have hmk : makeAvailable c { st with futures := X } t v
          = { makeAvailable c st t v with futures := X } := rfl
      rw [hmk, ih]
    · rw [if_neg hcd, if_neg hcd, ih]

/-- Changing the countdown of one pending future is invisible to the
invariant. -/
theorem Inv_replace_cd (c : Code) (ctx₀ : Ctx) (front : List Nat)
    (A B : List FutEntry) (ctx : Ctx) (done : List Nat) (t : String)
    (cd cd2 v : Nat)
    (hInv : Inv c ctx₀ front (A ++ (t, cd, v) :: B) ctx done) :
    Inv c ctx₀ front (A ++ (t, cd2, v) :: B) ctx done := by
  have hmid : ((t, cd, v) : FutEntry) ∈ A ++ (t, cd, v) :: B :=
    List.mem_append.2 (Or.inr (List.mem_cons_self _ _))
  constructor
  case doneNodup => exact hInv.doneNodup
  case doneLt => exact hInv.doneLt
  case frontLt => exact hInv.frontLt
  case frontNodup => exact hInv.frontNodup
  case frontNotDone => exact hInv.frontNotDone
  case frontDeps => exact hInv.frontDeps
  case ctxNames => exact hInv.ctxNames
  case ctxInit => exact hInv.ctxInit
  case doneDeps => exact hInv.doneDeps
  case futJust =>
    intro f hf
    rcases List.mem_append.1 hf with h | h
    · exact hInv.futJust f (List.mem_append.2 (Or.inl h))
    · rcases List.mem_cons.1 h with rfl | h2
      · exact hInv.futJust (t, cd, v) hmid
      · exact hInv.futJust f (List.mem_append.2 (Or.inr
          (List.mem_cons_of_mem _ h2)))
  case futFresh =>
    intro f hf
    rcases List.mem_append.1 hf with h | h
    · exact hInv.futFresh f (List.mem_append.2 (Or.inl h))
    · rcases List.mem_cons.1 h with rfl | h2
      · exact hInv.futFresh (t, cd, v) hmid
      · exact hInv.futFresh f (List.mem_append.2 (Or.inr
          (List.mem_cons_of_mem _ h2)))
  case futNodup =>
    have h := hInv.futNodup
    rw [List.map_append, List.map_cons] at h ⊢
    exact h
  case ready => exact hInv.ready

/-- Same, for the except-list invariant. -/
theorem DA_replace_cd (c : Code) (A B : List FutEntry) (ctx : Ctx)
    (done : List Nat) (t : String) (cd cd2 v : Nat)
    (hDA : DoneAssignedExcept c (A ++ (t, cd, v) :: B) ctx done []) :
    DoneAssignedExcept c (A ++ (t, cd2, v) :: B) ctx done [] := by
  intro i hi a ha
  rcases hDA i hi a ha with h | ⟨cd3, v3, hf⟩ | h
  · exact Or.inl h
  · rcases List.mem_append.1 hf with h2 | h2
    · exact Or.inr (Or.inl ⟨cd3, v3, List.mem_append.2 (Or.inl h2)⟩)
    · rcases List.mem_cons.1 h2 with he | h3
      · have h1 : a = t := congrArg Prod.fst he
        subst h1
        exact Or.inr (Or.inl ⟨cd2, v, List.mem_append.2 (Or.inr
          (List.mem_cons_self _ _))⟩)
      · exact Or.inr (Or.inl ⟨cd3, v3, List.mem_append.2 (Or.inr
          (List.mem_cons_of_mem _ h3))⟩)
  · cases h

/-- The poll phase preserves the invariant; it shortens the pending list
and only grows the ready set. -/
theorem pollLoop_inv (c : Code) (ctx₀ : Ctx) :
    ∀ (fs : List FutEntry) (st : ExecState),
      Inv c ctx₀ st.front (st.futures ++ fs) st.ctx st.done →
      DoneAssignedExcept c (st.futures ++ fs) st.ctx st.done [] →
      Inv c ctx₀ (pollLoop c fs st).2.front
        ((pollLoop c fs st).2.futures ++ (pollLoop c fs st).1)
        (pollLoop c fs st).2.ctx (pollLoop c fs st).2.done ∧
      DoneAssignedExcept c
        ((pollLoop c fs st).2.futures ++ (pollLoop c fs st).1)
        (pollLoop c fs st).2.ctx (pollLoop c fs st).2.done [] ∧
      (pollLoop c fs st).1.length ≤ fs.length ∧
      (∀ i ∈ st.front, i ∈ (pollLoop c fs st).2.front) := by
  intro fs
  induction fs with
  | nil =>
    intro st hInv hDA
    exact ⟨hInv, hDA, Nat.le_refl _, fun i h => h⟩
  | cons f rest ih =>
    obtain ⟨t, cd, v⟩ := f
    intro st hInv hDA
    have hmid : ((t, cd, v) : FutEntry)
        ∈ st.futures ++ (t, cd, v) :: rest :=
      List.mem_append.2 (Or.inr (List.mem_cons_self _ _))
    by_cases hcd : cd = 0
    · simp only [pollLoop, if_pos hcd]
      have hndmap := hInv.futNodup
      rw [List.map_append, List.map_cons, List.nodup_append] at hndmap
      have htnotA : t ∉ st.futures.map Prod.fst := by
        intro hc
        exact hndmap.2.2 hc (List.mem_cons_self _ _)
      have htnotR : t ∉ rest.map Prod.fst :=
        (List.nodup_cons.1 hndmap.2.1).1
      have hOutNodup : ((st.futures ++ rest).map Prod.fst).Nodup := by
        refine List.Nodup.sublist ?_ hInv.futNodup
        rw [List.map_append, List.map_append, List.map_cons]
        exact List.Sublist.append_left (List.sublist_cons_self _ _) _
      have hInv2 := makeAvailable_inv_core c ctx₀ st t v
        (st.futures ++ (t, cd, v) :: rest) (st.futures ++ rest) hInv
        (hInv.futFresh (t, cd, v) hmid) (hInv.futJust (t, cd, v) hmid)
        (by
          intro f hf
          rcases List.mem_append.1 hf with h | h
          · exact List.mem_append.2 (Or.inl h)
          · exact List.mem_append.2 (Or.inr (List.mem_cons_of_mem _ h)))
        hOutNodup
        (by
          rw [List.map_append]
          intro hc
          rcases List.mem_append.1 hc with h | h
          · exact htnotA h
          · exact htnotR h)
      have hDA2 := DA_bind c (st.futures ++ (t, cd, v) :: rest)
        (st.futures ++ rest) st.ctx st.done [] [] t v hDA
        (by
          intro f hf
          rcases List.mem_append.1 hf with h | h
          · exact Or.inl (List.mem_append.2 (Or.inl h))
          · rcases List.mem_cons.1 h with rfl | h2
            · exact Or.inr rfl
            · exact Or.inl (List.mem_append.2 (Or.inr h2)))
        (fun x hx => absurd hx (List.not_mem_nil x))
      have hres := ih (makeAvailable c st t v) hInv2 hDA2
      refine ⟨hres.1, hres.2.1, Nat.le_trans hres.2.2.1 (by simp), ?_⟩
      intro i hif
      refine hres.2.2.2 i ?_
      rw [makeAvailable_front]
      exact foldl_addFront_subset c _ _ _ i hif
    · simp only [pollLoop, if_neg hcd]
      have hInv' : Inv c ctx₀ st.front
          ((st.futures ++ [(t, cd - 1, v)]) ++ rest) st.ctx st.done := by
        rw [List.append_assoc]
        exact Inv_replace_cd c ctx₀ st.front st.futures rest st.ctx
          st.done t cd (cd - 1) v hInv
      have hDA' : DoneAssignedExcept c
          ((st.futures ++ [(t, cd - 1, v)]) ++ rest) st.ctx st.done [] := by
        rw [List.append_assoc]
        exact DA_replace_cd c st.futures rest st.ctx st.done t cd
          (cd - 1) v hDA
      have hres := ih { st with futures := st.futures ++ [(t, cd - 1, v)] }
        hInv' hDA'
      rw [pollLoop_frame] at hres
      cases hpl : pollLoop c rest st with
      | mk fs2 st2 =>
        rw [hpl] at hres
        simp only at hres
        have hfut2 : st2.futures = st.futures := by
          have := pollLoop_futures_eq c rest st
          rw [hpl] at this
          exact this
        refine ⟨?_, ?_, ?_, ?_⟩
        · show Inv c ctx₀ st2.front (st2.futures ++ (t, cd - 1, v) :: fs2)
            st2.ctx st2.done
          rw [hfut2, List.append_cons]
          exact hres.1
        · show DoneAssignedExcept c
            (st2.futures ++ (t, cd - 1, v) :: fs2) st2.ctx st2.done []
          rw [hfut2, List.append_cons]
          exact hres.2.1
        · show ((t, cd - 1, v) :: fs2).length ≤ rest.length + 1
          simp only [List.length_cons]
          omega
        · show ∀ i ∈ st.front, i ∈ st2.front
          exact hres.2.2.2

/-- `argmin2` returns `none` only on the empty list. -/
theorem argmin2_eq_none {α : Type} {l : List (α × Int)}
    (h : argmin2 l = none) : l = [] := by
  cases l with
  | nil => rfl
  | cons hd tl =>
    obtain ⟨y, q⟩ := hd
    simp [argmin2] at h

/-- At most one future can be pending per generated variable. -/
theorem futures_le_generated (c : Code) (ctx₀ : Ctx) (front : List Nat)
    (futs : List FutEntry) (ctx : Ctx) (done : List Nat)
    (hInv : Inv c ctx₀ front futs ctx done) :
    futs.length ≤ c.generatedVars.length := by
  have h : (futs.map Prod.fst).length ≤ c.generatedVars.length := by
    refine nodup_subset_length_le hInv.futNodup ?_
    intro x hx
    rcases List.mem_map.1 hx with ⟨f, hf, rfl⟩
    rcases hInv.futJust f hf with ⟨j, hj, ha⟩
    exact assignee_mem_generated c (hInv.doneLt j hj) ha
  simpa using h

/-- No more instructions can be done than the code has. -/
theorem done_le_len (c : Code) (ctx₀ : Ctx) (front : List Nat)
    (futs : List FutEntry) (ctx : Ctx) (done : List Nat)
    (hInv : Inv c ctx₀ front futs ctx done) :
    done.length ≤ c.instructions.length := by
  have h : done.length ≤ (List.range c.instructions.length).length :=
    nodup_subset_length_le hInv.doneNodup
      (fun x hx => List.mem_range.2 (hInv.doneLt x hx))
  simpa using h

/-- The termination measure of the scheduler loop: unexecuted
instructions weighted by the maximal possible future count, plus the
pending futures. -/
def schedMeasure (c : Code) (st : ExecState) : Nat :=
  (c.instructions.length - st.done.length) * (c.generatedVars.length + 1)
    + st.futures.length

/-- The poll phase preserves the invariant (wrapper over the full
state). -/
theorem pollFutures_inv (c : Code) (ctx₀ : Ctx) (st : ExecState)
    (hInv : Inv c ctx₀ st.front st.futures st.ctx st.done)
    (hDA : DoneAssignedExcept c st.futures st.ctx st.done []) :
    Inv c ctx₀ (pollFutures c st).front (pollFutures c st).futures
      (pollFutures c st).ctx (pollFutures c st).done ∧
    DoneAssignedExcept c (pollFutures c st).futures (pollFutures c st).ctx
      (pollFutures c st).done [] ∧
    (pollFutures c st).futures.length ≤ st.futures.length ∧
    (pollFutures c st).done = st.done ∧
    (∀ i ∈ st.front, i ∈ (pollFutures c st).front) := by
  have h := pollLoop_inv c ctx₀ st.futures { st with futures := [] }
    (by
      show Inv c ctx₀ st.front ([] ++ st.futures) st.ctx st.done
      rw [List.nil_append]
      exact hInv)
    (by
      show DoneAssignedExcept c ([] ++ st.futures) st.ctx st.done []
      rw [List.nil_append]
      exact hDA)
  have hfe := pollLoop_futures_eq c st.futures { st with futures := [] }
  have hde := pollLoop_done_eq c st.futures { st with futures := [] }
  unfold pollFutures
  cases hpl : pollLoop c st.futures { st with futures := [] } with
  | mk fs2 st2 =>
    rw [hpl] at h hfe hde
    simp only at h hfe hde
    refine ⟨?_, ?_, ?_, ?_, ?_⟩
    · show Inv c ctx₀ st2.front fs2 st2.ctx st2.done
      have := h.1
      rw [hfe] at this
      rw [show ([] : List FutEntry) ++ fs2 = fs2 from rfl] at this
      exact this
    · show DoneAssignedExcept c fs2 st2.ctx st2.done []
      have := h.2.1
      rw [hfe] at this
      rw [show ([] : List FutEntry) ++ fs2 = fs2 from rfl] at this
      exact this
    · show fs2.length ≤ st.futures.length
      exact h.2.2.1
    · show st2.done = st.done
      exact hde
    · show ∀ i ∈ st.front, i ∈ st2.front
      exact h.2.2.2

/-- One scheduler step preserves the invariant and strictly decreases
the measure while the loop is running. -/
theorem step_inv (c : Code) (ctx₀ : Ctx) (st : ExecState)
    (hW1 : c.generatedVars.Nodup)
    (hW2 : ∀ p ∈ ctx₀, p.1 ∉ c.generatedVars)
    (hW4 : ∀ j, j < c.instructions.length → ∀ ctx,
      ((c.insn j).exec ctx).length = (c.insn j).assignees.length)
    (hInv : Inv c ctx₀ st.front st.futures st.ctx st.done)
    (hDA : DoneAssignedExcept c st.futures st.ctx st.done []) :
    Inv c ctx₀ (step c st).front (step c st).futures (step c st).ctx
      (step c st).done ∧
    DoneAssignedExcept c (step c st).futures (step c st).ctx
      (step c st).done [] ∧
    (¬ terminal st → schedMeasure c (step c st) < schedMeasure c st) := by
  by_cases ht : terminal st
  · rw [step_terminal ht]
    exact ⟨hInv, hDA, fun hc => absurd ht hc⟩
  · have hpoll := pollFutures_inv c ctx₀ st hInv hDA
    have hstep : step c st = match argmin2 ((pollFutures c st).front.map
        (fun i => (i, (c.insn i).priority))) with
      | some i => execInsn c (pollFutures c st) i
      | none =>
        match (pollFutures c st).futures.getLast? with
        | some (t, _, v) =>
          makeAvailable c { pollFutures c st with
            futures := (pollFutures c st).futures.dropLast } t v
        | none => pollFutures c st := by
      unfold step
      rw [if_neg ht]
    rw [hstep]
    cases ha : argmin2 ((pollFutures c st).front.map
        (fun i => (i, (c.insn i).priority))) with
    | some i =>
      have hifront : i ∈ (pollFutures c st).front := by
        have hm := argmin2_mem ha
        rw [List.map_map] at hm
        rcases List.mem_map.1 hm with ⟨j, hj, hje⟩
        simp only [Function.comp_apply] at hje
        rw [← hje]
        exact hj
      have hexec := execInsn_inv c ctx₀ (pollFutures c st) i hW1 hW2 hW4
        hpoll.1 hpoll.2.1 hifront
      refine ⟨hexec.1, hexec.2.1, ?_⟩
      intro _
      show schedMeasure c (execInsn c (pollFutures c st) i)
        < schedMeasure c st
      unfold schedMeasure
      have hd2 : (execInsn c (pollFutures c st) i).done.length
          = st.done.length + 1 := by
        rw [hexec.2.2.1, List.length_append, hpoll.2.2.2.1]
        rfl
      have hdle : (execInsn c (pollFutures c st) i).done.length
          ≤ c.instructions.length := done_le_len c ctx₀ _ _ _ _ hexec.1
      have hfle : (execInsn c (pollFutures c st) i).futures.length
          ≤ c.generatedVars.length := futures_le_generated c ctx₀ _ _ _ _
        hexec.1
      rw [hd2]
      have hlt : st.done.length < c.instructions.length := by omega
      have harith : c.instructions.length - st.done.length
          = (c.instructions.length - (st.done.length + 1)) + 1 := by omega
      rw [harith, Nat.add_mul, Nat.one_mul]
      omega
    | none =>
      have hfront1 : (pollFutures c st).front = [] := by
        have := argmin2_eq_none ha
        exact List.map_eq_nil.1 this
      have hfrontst : st.front = [] := by
        cases hsf : st.front with
        | nil => rfl
        | cons a rest =>
          exfalso
          have := hpoll.2.2.2.2 a (by rw [hsf]; exact List.mem_cons_self _ _)
          rw [hfront1] at this
          cases this
      have hfne : st.futures ≠ [] := by
        intro hc
        exact ht ⟨hfrontst, hc⟩
      cases hl : (pollFutures c st).futures.getLast? with
      | some f =>
        obtain ⟨t, cd, v⟩ := f
        have hsplit : (pollFutures c st).futures.dropLast ++ [(t, cd, v)]
            = (pollFutures c st).futures :=
          List.dropLast_append_getLast? _ hl
        have hmid : ((t, cd, v) : FutEntry)
            ∈ (pollFutures c st).futures := by
          rw [← hsplit]
          exact List.mem_append.2 (Or.inr (List.mem_cons_self _ _))
        have hndmap := hpoll.1.futNodup
        have htnot : t ∉ (pollFutures c st).futures.dropLast.map
            Prod.fst := by
          intro hc
          have h2 := hndmap
          rw [← hsplit, List.map_append, List.nodup_append] at h2
          exact h2.2.2 hc (by simp)
        have hInvIn : Inv c ctx₀ (pollFutures c st).front
            ((pollFutures c st).futures.dropLast ++ (t, cd, v) :: [])
            (pollFutures c st).ctx (pollFutures c st).done := by
          rw [show ((t, cd, v) :: [] : List FutEntry) = [(t, cd, v)]
            from rfl, hsplit]
          exact hpoll.1
        have hInv2 := makeAvailable_inv_core c ctx₀
          { pollFutures c st with
            futures := (pollFutures c st).futures.dropLast } t v
          ((pollFutures c st).futures.dropLast ++ [(t, cd, v)])
          ((pollFutures c st).futures.dropLast)
          (by rw [hsplit]; exact hpoll.1)
          (hpoll.1.futFresh (t, cd, v) hmid)
          (hpoll.1.futJust (t, cd, v) hmid)
          (fun f hf => List.mem_append.2 (Or.inl hf))
          (by
            refine List.Nodup.sublist ?_ hndmap
            exact List.Sublist.map _ (List.dropLast_sublist _))
          htnot
        have hDA2 := DA_bind c
          ((pollFutures c st).futures.dropLast ++ [(t, cd, v)])
          ((pollFutures c st).futures.dropLast)
          (pollFutures c st).ctx (pollFutures c st).done [] [] t v
          (by rw [hsplit]; exact hpoll.2.1)
          (by
            intro f hf
            rcases List.mem_append.1 hf with h | h
            · exact Or.inl h
            · simp only [List.mem_singleton] at h
              subst h
              exact Or.inr rfl)
          (fun x hx => absurd hx (List.not_mem_nil x))
        refine ⟨hInv2, hDA2, ?_⟩
        intro _
        show schedMeasure c (makeAvailable c { pollFutures c st with
            futures := (pollFutures c st).futures.dropLast } t v)
          < schedMeasure c st
        unfold schedMeasure
        have hdeq : (makeAvailable c { pollFutures c st with
            futures := (pollFutures c st).futures.dropLast } t v).done
            = st.done := hpoll.2.2.2.1
        have hfeq : (makeAvailable c { pollFutures c st with
            futures := (pollFutures c st).futures.dropLast } t v).futures
            = (pollFutures c st).futures.dropLast := rfl
        have hf1 : 1 ≤ (pollFutures c st).futures.length := by
          cases hsf : (pollFutures c st).futures with
          | nil => rw [hsf] at hl; cases hl
          | cons a rest => simp
        have hfle := hpoll.2.2.1
        rw [hdeq, hfeq, List.length_dropLast]
        omega
      | none =>
        refine ⟨hpoll.1, hpoll.2.1, ?_⟩
        intro _
        show schedMeasure c (pollFutures c st) < schedMeasure c st
        unfold schedMeasure
        have hfe : (pollFutures c st).futures = [] :=
          List.getLast?_eq_none_iff.1 hl
        rw [hpoll.2.2.2.1, hfe]
        have hfge : 1 ≤ st.futures.length := by
          cases hsf : st.futures with
          | nil => exact absurd hsf hfne
          | cons a rest => simp
        simp only [List.length_nil]
        omega

/-- With enough fuel — the initial measure suffices — the loop reaches a
terminal state, and the invariant holds there. -/
theorem runSched_reaches_terminal (c : Code) (ctx₀ : Ctx)
    (hW1 : c.generatedVars.Nodup)
    (hW2 : ∀ p ∈ ctx₀, p.1 ∉ c.generatedVars)
    (hW4 : ∀ j, j < c.instructions.length → ∀ ctx,
      ((c.insn j).exec ctx).length = (c.insn j).assignees.length) :
    ∀ (n : Nat) (st : ExecState),
      Inv c ctx₀ st.front st.futures st.ctx st.done →
      DoneAssignedExcept c st.futures st.ctx st.done [] →
      schedMeasure c st ≤ n →
      terminal (runSched c n st) ∧
      Inv c ctx₀ (runSched c n st).front (runSched c n st).futures
        (runSched c n st).ctx (runSched c n st).done ∧
      DoneAssignedExcept c (runSched c n st).futures
        (runSched c n st).ctx (runSched c n st).done [] := by
  intro n
  induction n with
  | zero =>
    intro st hInv hDA hM
    have hterm : terminal st := by
      by_contra hc
      have hM1 : 1 ≤ schedMeasure c st := by
        unfold terminal at hc
        rw [not_and_or] at hc
        unfold schedMeasure
        rcases hc with hc | hc
        · rcases List.exists_mem_of_ne_nil _ hc with ⟨i, hi⟩
          have hle : ((i :: st.done).length)
              ≤ (List.range c.instructions.length).length := by
            refine nodup_subset_length_le ?_ ?_
            · exact List.nodup_cons.2 ⟨hInv.frontNotDone i hi,
                hInv.doneNodup⟩
            · intro x hx
              rcases List.mem_cons.1 hx with rfl | hx2
              · exact List.mem_range.2 (hInv.frontLt x hi)
              · exact List.mem_range.2 (hInv.doneLt x hx2)
          rw [List.length_range] at hle
          simp only [List.length_cons] at hle
          have h1 : 1 ≤ c.instructions.length - st.done.length := by
            omega
          have h2 : c.instructions.length - st.done.length
              ≤ (c.instructions.length - st.done.length)
                * (c.generatedVars.length + 1) := by
            exact Nat.le_mul_of_pos_right _ (by omega)
          omega
        · rcases List.exists_mem_of_ne_nil _ hc with ⟨f, hf⟩
          have : 1 ≤ st.futures.length := List.length_pos_of_mem hf
          omega
      omega
    exact ⟨hterm, hInv, hDA⟩
  | succ n ih =>
    intro st hInv hDA hM
    by_cases ht : terminal st
    · rw [runSched_terminal ht]
      exact ⟨ht, hInv, hDA⟩
    · have hs := step_inv c ctx₀ st hW1 hW2 hW4 hInv hDA
      have hM2 : schedMeasure c (step c st) ≤ n := by
        have := hs.2.2 ht
        omega
      rw [runSched]
      exact ih (step c st) hs.1 hs.2.1 hM2

/-- At a terminal state of a well-formed run, every instruction has been
executed. -/
theorem terminal_all_done (c : Code) (ctx₀ : Ctx)
    (hW3 : ∀ j, j < c.instructions.length → ∀ d ∈ (c.insn j).deps,
      ctxMem ctx₀ d = true ∨ ∃ i ∈ List.range j, d ∈ (c.insn i).assignees)
    (st : ExecState)
    (hInv : Inv c ctx₀ st.front st.futures st.ctx st.done)
    (hDA : DoneAssignedExcept c st.futures st.ctx st.done [])
    (ht : terminal st) :
    ∀ j, j < c.instructions.length → j ∈ st.done := by
  intro j
  induction j using Nat.strong_induction_on with
  | _ j ih =>
    intro hj
    by_contra hnd
    have hdeps : ∀ d ∈ (c.insn j).deps, ctxMem st.ctx d = true := by
      intro d hd
      rcases hW3 j hj d hd with h | ⟨i, hir, ha⟩
      · exact hInv.ctxInit d h
      · have hij : i < j := List.mem_range.1 hir
        have hidone : i ∈ st.done := ih i hij (Nat.lt_trans hij hj)
        rcases hDA i hidone d ha with h2 | ⟨cd, v, hf⟩ | h2
        · exact h2
        · rw [ht.2] at hf; cases hf
        · cases h2
    have := hInv.ready j hj hnd hdeps
    rw [ht.1] at this
    cases this

/-- The initial state of `Code.execute` satisfies the invariant. -/
theorem initState_inv (c : Code) (ctx₀ : Ctx)
    (hW2 : ∀ p ∈ ctx₀, p.1 ∉ c.generatedVars)
    (hW3 : ∀ j, j < c.instructions.length → ∀ d ∈ (c.insn j).deps,
      ctxMem ctx₀ d = true ∨
        ∃ i ∈ List.range j, d ∈ (c.insn i).assignees) :
    Inv c ctx₀ (initState c ctx₀).front (initState c ctx₀).futures
      (initState c ctx₀).ctx (initState c ctx₀).done ∧
    DoneAssignedExcept c (initState c ctx₀).futures
      (initState c ctx₀).ctx (initState c ctx₀).done [] := by
  constructor
  · constructor
    case doneNodup => exact List.nodup_nil
    case doneLt => intro i hi; cases hi
    case frontLt =>
      intro i hi
      exact List.mem_range.1 (List.mem_filter.1 hi).1
    case frontNodup =>
      exact List.Nodup.filter _ (List.nodup_range _)
    case frontNotDone => intro i _ hc; cases hc
    case frontDeps =>
      intro i hi d hd
      have hcond := (List.mem_filter.1 hi).2
      have hnotgen : ¬ d ∈ c.generatedVars := by
        have := List.all_eq_true.1 hcond d hd
        simpa using this
      have hilen : i < c.instructions.length :=
        List.mem_range.1 (List.mem_filter.1 hi).1
      rcases hW3 i hilen d hd with h | ⟨i2, hir, ha⟩
      · exact h
      · exact absurd (assignee_mem_generated c
          (Nat.lt_trans (List.mem_range.1 hir) hilen) ha) hnotgen
    case ctxNames => intro n hn; exact Or.inl hn
    case ctxInit => intro n hn; exact hn
    case doneDeps => intro i hi; cases hi
    case futJust => intro f hf; cases hf
    case futFresh => intro f hf; cases hf
    case futNodup => exact List.nodup_nil
    case ready =>
      intro i hi _ hdeps
      refine List.mem_filter.2 ⟨List.mem_range.2 hi, ?_⟩
      refine List.all_eq_true.2 ?_
      intro d hd
      have hb := hdeps d hd
      rcases ctxMem_exists hb with ⟨p, hp, hpe⟩
      have := hW2 p hp
      rw [hpe] at this
      simpa using this
  · intro i hi; cases hi

/-- C9: for a well-formed code — globally fresh assignee names, initial
bindings disjoint from generated names and covering every dependency not
produced by an earlier instruction, executor methods yielding one value
or future per assignee — `Code.execute` terminates (futures in this model
always eventually report ready, and the force-resolve path covers the
case of the ready set emptying while a future is outstanding), and on
termination every instruction has been executed exactly once (the done
trace is a permutation of all instruction indices, each counted once)
before the result expression is evaluated from the final context. -/
theorem C9_terminates_each_instruction_once (c : Code) (ctx₀ : Ctx)
    (hW1 : c.generatedVars.Nodup)
    (hW2 : ∀ p ∈ ctx₀, p.1 ∉ c.generatedVars)
    (hW3 : ∀ j, j < c.instructions.length → ∀ d ∈ (c.insn j).deps,
      ctxMem ctx₀ d = true ∨
        ∃ i ∈ List.range j, d ∈ (c.insn i).assignees)
    (hW4 : ∀ j, j < c.instructions.length → ∀ ctx,
      ((c.insn j).exec ctx).length = (c.insn j).assignees.length) :
    ∃ fuel, terminal (runSched c fuel (initState c ctx₀)) ∧
      (runSched c fuel (initState c ctx₀)).done.Perm
        (List.range c.instructions.length) ∧
      (∀ j, j < c.instructions.length →
        (runSched c fuel (initState c ctx₀)).done.count j = 1) ∧
      Code.execute c fuel ctx₀
        = c.result (runSched c fuel (initState c ctx₀)).ctx := by
  rcases initState_inv c ctx₀ hW2 hW3 with ⟨hInv0, hDA0⟩
  refine ⟨schedMeasure c (initState c ctx₀), ?_⟩
  have hreach := runSched_reaches_terminal c ctx₀ hW1 hW2 hW4
    (schedMeasure c (initState c ctx₀)) (initState c ctx₀) hInv0 hDA0
    (Nat.le_refl _)
  have hterm := hreach.1
  have hInvF := hreach.2.1
  have hDAF := hreach.2.2
  have hall := terminal_all_done c ctx₀ hW3 _ hInvF hDAF hterm
  have hperm : (runSched c (schedMeasure c (initState c ctx₀))
      (initState c ctx₀)).done.Perm
      (List.range c.instructions.length) := by
    refine List.perm_of_nodup_nodup_toFinset_eq hInvF.doneNodup
      (List.nodup_range _) ?_
    ext x
    simp only [List.mem_toFinset, List.mem_range]
    constructor
    · intro hx; exact hInvF.doneLt x hx
    · intro hx; exact hall x hx
  refine ⟨hterm, hperm, ?_, rfl⟩
  intro j hj
  rw [hperm.count_eq]
  exact List.count_eq_one_of_mem (List.nodup_range _) (List.mem_range.2 hj)

/-- Witness for C9 at the three-instruction chain code with input
binding `x = 5`. -/
theorem C9_witness :
    ∃ fuel, terminal (runSched (chainCode Nat.succ Nat.succ Nat.succ 0 0 0)
        fuel (initState (chainCode Nat.succ Nat.succ Nat.succ 0 0 0)
          [("x", 5)])) ∧
      (runSched (chainCode Nat.succ Nat.succ Nat.succ 0 0 0) fuel
        (initState (chainCode Nat.succ Nat.succ Nat.succ 0 0 0)
          [("x", 5)])).done.Perm
        (List.range (chainCode Nat.succ Nat.succ Nat.succ
          0 0 0).instructions.length) ∧
      (∀ j, j < (chainCode Nat.succ Nat.succ Nat.succ
          0 0 0).instructions.length →
        (runSched (chainCode Nat.succ Nat.succ Nat.succ 0 0 0) fuel
          (initState (chainCode Nat.succ Nat.succ Nat.succ 0 0 0)
            [("x", 5)])).done.count j = 1) ∧
      Code.execute (chainCode Nat.succ Nat.succ Nat.succ 0 0 0) fuel
          [("x", 5)]
        = (chainCode Nat.succ Nat.succ Nat.succ 0 0 0).result
          (runSched (chainCode Nat.succ Nat.succ Nat.succ 0 0 0) fuel
            (initState (chainCode Nat.succ Nat.succ Nat.succ 0 0 0)
              [("x", 5)])).ctx :=
  C9_terminates_each_instruction_once
    (chainCode Nat.succ Nat.succ Nat.succ 0 0 0) [("x", 5)]
    (by decide) (by decide) (by decide)
    (by
      intro j hj ctx
      have hj3 : j < 3 := hj
      interval_cases j <;> rfl)

end Hedge
